import Mathlib

/-!
# Module declarations and the workspace registry (`cmd/files/main.go`)

A shallow embedding of the Go program: the Starlark values the host functions
receive, Go maps as association lists with unique keys, the workspace registry
(`Workspace.RegisterModule`, `Workspace.GetFiles`), the attribute constructors
(`attrFiles`, `attrModules`), the rule factory (`Workspace.rule`) and the rule
handler (`ruleimpl.fn`).

Conventions.
* A Go function returning `(value, error)` that can also stop on a failed
  unchecked type assertion or a nil dereference returns an `Outcome`:
  `ok`, `error msg` or `crash msg`.
* The workspace is a pointer in Go; here it is passed in and returned.
* `range` over a Go map visits the entries in an order chosen by the runtime;
  that choice is the explicit argument `RangeOrder`.
* `log.Printf` output is not modelled.
-/

set_option autoImplicit false

namespace Mods

/-! ## Starlark values -/

/-- The Starlark values that reach the host functions. `files` and `modules`
are the two descriptor types declared at the end of `main.go`; the other
constructors stand for the interpreter's own value types. -/
inductive Value where
  | none
  | bool (b : Bool)
  | int (n : Int)
  | str (s : String)
  | list (elems : List Value)
  | tuple (elems : List Value)
  | dict (items : List (Value × Value))
  | builtin (name : String)
  | files
  | modules (types : List String)

/-- Result of a host function: `(v, nil)`, `(nil, err)`, or a run-time panic. -/
inductive Outcome (α : Type) where
  | ok (v : α)
  | error (msg : String)
  | crash (msg : String)
  deriving DecidableEq, Repr

/-- Whether the outcome is a normal return without error. -/
def Outcome.isOk {α : Type} : Outcome α → Bool
  | .ok _ => true
  | _ => false

/-- Whether the outcome is a returned error (`err != nil`). -/
def Outcome.isError {α : Type} : Outcome α → Bool
  | .error _ => true
  | _ => false

/-! ## Go maps -/

/-- Read `m[k]` with the comma-ok form: `none` when the key is absent. -/
def mapLookup {K V : Type} [DecidableEq K] : List (K × V) → K → Option V
  | [], _ => Option.none
  | (k', v) :: rest, k => if k' = k then some v else mapLookup rest k

/-- The assignment `m[k] = v`: replaces the entry of `k` if there is one, adds one
otherwise. -/
def mapSet {K V : Type} [DecidableEq K] : List (K × V) → K → V → List (K × V)
  | [], k, v => [(k, v)]
  | (k', v') :: rest, k, v =>
    if k' = k then (k, v) :: rest else (k', v') :: mapSet rest k v

/-- The keys of a map. -/
def mapKeys {K V : Type} (m : List (K × V)) : List K := m.map Prod.fst

/-! ## Registry data -/

/-- Go `type filedep struct { items []string }`. -/
structure filedep where
  items : List String
  deriving DecidableEq, Repr

/-- Go `type moduledep struct { types []string; items []string }`. -/
structure moduledep where
  types : List String
  items : List String
  deriving DecidableEq, Repr

/-- Go `type Module struct`. -/
structure Module where
  fname : String
  name : String
  filedeps : List (String × filedep)
  moduledeps : List (String × moduledep)
  deriving DecidableEq, Repr

/-- Go `type Workspace struct { modules map[[2]string]Module }`; `none` is the nil
map of a workspace made with `&Workspace{}`. -/
structure Workspace where
  modules : Option (List ((String × String) × Module))
  deriving DecidableEq, Repr

/-- The workspace `&Workspace{}` of `main`. -/
def Workspace.fresh : Workspace := ⟨Option.none⟩

/-- The read `ws.modules[key]` (a nil map reads as empty). -/
def Workspace.lookup (ws : Workspace) (key : String × String) : Option Module :=
  match ws.modules with
  | Option.none => Option.none
  | some m => mapLookup m key

/-- Whether an identity is present in the registry. -/
def Workspace.contains (ws : Workspace) (key : String × String) : Bool :=
  (ws.lookup key).isSome

/-- `Workspace.RegisterModule` (lines 73-87). -/
def Workspace.RegisterModule (ws : Workspace) (fname name : String)
    (filedeps : List (String × filedep)) (moduledeps : List (String × moduledep)) :
    Workspace :=
  let modules : List ((String × String) × Module) :=
    match ws.modules with
    | Option.none => []
    | some m => m
  let key : String × String := (fname, name)
  let mod : Module :=
    { fname := fname, name := name, filedeps := filedeps, moduledeps := moduledeps }
  ⟨some (mapSet modules key mod)⟩

/-- The order in which one `range` statement visits the entries of a
`map[string]filedep`: some rearrangement of the entries. -/
structure RangeOrder where
  pick : List (String × filedep) → List (String × filedep)
  perm : ∀ m, (pick m).Perm m

/-- Visit the entries in the order they are stored. -/
def RangeOrder.stored : RangeOrder := ⟨fun m => m, fun m => List.Perm.refl m⟩

/-- Visit the entries in the opposite order. -/
def RangeOrder.reversed : RangeOrder := ⟨fun m => m.reverse, fun m => List.reverse_perm m⟩

/-- The inner loop of `GetFiles` (lines 98-100): append each item. -/
def appendItems (files : List String) : List String → List String
  | [] => files
  | file :: rest => appendItems (files ++ [file]) rest

/-- The outer loop of `GetFiles` (lines 97-101) over the entries in visiting order. -/
def collectFiles (files : List String) : List (String × filedep) → List String
  | [] => files
  | (_, fd) :: rest => collectFiles (appendItems files fd.items) rest

/-- `Workspace.GetFiles` (lines 89-103): the returned slice and the returned error. -/
def Workspace.GetFiles (ws : Workspace) (fname name : String) (ro : RangeOrder) :
    List String × Option String :=
  let key : String × String := (fname, name)
  match ws.lookup key with
  | Option.none => ([], some "Unable to find module")
  | some mod => (collectFiles [] (ro.pick mod.filedeps), Option.none)

/-! ## Conversion of an argument to strings -/

/-- The loop of `toStrings` (lines 200-207). -/
def toStringsLoop : List Value → List String → Except String (List String)
  | [], values => .ok values
  | .str s :: rest, values => toStringsLoop rest (values ++ [s])
  | _ :: _, _ => .error "Not a string list"

/-- `toStrings` (lines 193-210). -/
def toStrings (v : Value) : Except String (List String) :=
  match v with
  | .list elems => toStringsLoop elems []
  | _ => .error "Not a list"

/-! ## Attribute constructors -/

/-- Go `var ErrArgsNotSupported` (lines 11-13), the message of the error value; no
function of the file returns it. -/
def ErrArgsNotSupported : String := "Positional argument is not supported"

/-- `attrFiles` (lines 253-255): the arguments are not inspected. -/
def attrFiles (_args : List Value) (_kwargs : List (Value × Value)) : Outcome Value :=
  .ok .files

/-- The loop over the elements of `types` in `attrModules` (lines 268-275). -/
def attrModulesElems : List Value → List String → Outcome (List String)
  | [], types => .ok types
  | .str s :: rest, types => attrModulesElems rest (types ++ [s])
  | _ :: _, _ => .error "Expected string"

/-- The loop over the keywords in `attrModules` (lines 259-279). -/
def attrModulesLoop : List (Value × Value) → List String → Outcome (List String)
  | [], types => .ok types
  | (.str key, v) :: rest, types =>
    if key = "types" then
      match v with
      | .list values =>
        match attrModulesElems values types with
        | .ok types' => attrModulesLoop rest types'
        | .error e => .error e
        | .crash c => .crash c
      | _ => .error "Expected list"
    else .error ("Unexpected key: " ++ key)
  | (_, _) :: _, _ => .crash "interface conversion: not a starlark.String"

/-- `attrModules` (lines 257-282). -/
def attrModules (_args : List Value) (kwargs : List (Value × Value)) : Outcome Value :=
  match attrModulesLoop kwargs [] with
  | .ok types => .ok (.modules types)
  | .error e => .error e
  | .crash c => .crash c

/-! ## Rules -/

/-- Go `type ruleimpl struct`, without the workspace pointer (the workspace is
passed to `fn` explicitly). -/
structure ruleimpl where
  attrs : List (String × Value)
  types : List String

/-- The loop over `attrs.Items()` in `rule` (lines 116-119). -/
def ruleAttrsLoop : List (Value × Value) → List (String × Value) →
    Outcome (List (String × Value))
  | [], attrs => .ok attrs
  | (.str a, v) :: rest, attrs => ruleAttrsLoop rest (mapSet attrs a v)
  | (_, _) :: _, _ => .crash "interface conversion: not a starlark.String"

/-- The loop over the keywords in `rule` (lines 112-125). -/
def ruleLoop : List (Value × Value) → ruleimpl → Outcome ruleimpl
  | [], r => .ok r
  | (.str key, v) :: rest, r =>
    if key = "attrs" then
      match v with
      | .dict items =>
        match ruleAttrsLoop items r.attrs with
        | .ok attrs => ruleLoop rest { r with attrs := attrs }
        | .error e => .error e
        | .crash c => .crash c
      | _ => .crash "interface conversion: not a *starlark.Dict"
    else if key = "type" then
      match toStrings v with
      | .ok ts => ruleLoop rest { r with types := ts }
      | .error _ => ruleLoop rest { r with types := [] }
    else .error ("Unexpected key: " ++ key)
  | (_, _) :: _, _ => .crash "interface conversion: not a starlark.String"

/-- `Workspace.rule` (lines 105-128): the handler is `ruleimpl.fn` of the result. -/
def Workspace.rule (_args : List Value) (kwargs : List (Value × Value)) : Outcome ruleimpl :=
  ruleLoop kwargs { attrs := [], types := [] }

/-- A frame of the interpreter's call chain; `filename` is
`frame.Position().Filename()`. -/
structure Frame where
  filename : String
  deriving DecidableEq, Repr

/-- The call chain seen by a host function: `callers.head?` is `thread.Caller()`,
the tail is reached through `Parent()`. -/
structure Thread where
  callers : List Frame
  deriving DecidableEq, Repr

/-- The local variables of `ruleimpl.fn` after the keyword loop. -/
structure Decl where
  name : String
  filedeps : List (String × filedep)
  moduledeps : List (String × moduledep)
  deriving DecidableEq, Repr

/-- The dispatch on the kind of the attribute in `ruleimpl.fn` (lines 165-169). -/
def recordAttr (attr : Value) (key : String) (items : List String) (d : Decl) : Decl :=
  match attr with
  | .files => { d with filedeps := mapSet d.filedeps key ⟨items⟩ }
  | .modules types => { d with moduledeps := mapSet d.moduledeps key ⟨types, items⟩ }
  | _ => d

/-- The keyword loop of `ruleimpl.fn` (lines 150-172). -/
def ruleimpl.fnLoop (r : ruleimpl) : List (Value × Value) → Decl → Outcome Decl
  | [], d => .ok d
  | (.str key, v) :: rest, d =>
    if key = "name" then
      match v with
      | .str s => fnLoop r rest { d with name := s }
      | _ => .crash "interface conversion: not a starlark.String"
    else
      match mapLookup r.attrs key with
      | Option.none => .error ("Unexpected key: " ++ key)
      | some attr =>
        match toStrings v with
        | .error err => .error err
        | .ok items => fnLoop r rest (recordAttr attr key items d)
  | (_, _) :: _, _ => .crash "interface conversion: not a starlark.String"

/-- `ruleimpl.fn` (lines 145-191): the workspace afterwards and the result. -/
def ruleimpl.fn (r : ruleimpl) (thread : Thread) (kwargs : List (Value × Value))
    (ws : Workspace) : Workspace × Outcome Value :=
  match r.fnLoop kwargs { name := "", filedeps := [], moduledeps := [] } with
  | .error err => (ws, .error err)
  | .crash c => (ws, .crash c)
  | .ok d =>
    if d.name = "" then (ws, .error "name parameter is required")
    else
      match thread.callers with
      | [] => (ws, .crash "nil pointer dereference")
      | caller :: _ => (ws.RegisterModule caller.filename d.name d.filedeps d.moduledeps, .ok .none)

/-! ## Evaluation of a configuration file -/

/-- One call of a rule handler made while a file is evaluated: the call chain at
that moment and the keywords passed. -/
structure Call where
  thread : Thread
  kwargs : List (Value × Value)

/-- The handler calls of one file evaluation (`starlark.ExecFile`, line 43), in the
order the interpreter makes them; evaluation stops at the first call that does
not return normally. -/
def evalFile (r : ruleimpl) : List Call → Workspace → Workspace × Outcome Value
  | [], ws => (ws, .ok .none)
  | c :: rest, ws =>
    match r.fn c.thread c.kwargs ws with
    | (ws', .ok _) => evalFile r rest ws'
    | (ws', .error err) => (ws', .error err)
    | (ws', .crash m) => (ws', .crash m)

/-- How a run of `main` ends after line 43. -/
inductive Exit where
  | fatal (msg : String)
  | crashed (msg : String)
  | queried (files : List String) (err : Option String)
  deriving DecidableEq, Repr

/-- Lines 42-59 of `main`, for a workspace `ws` and the handler `r` bound to `module`:
an evaluation error ends the process (`log.Fatal`), otherwise `GetFiles("MODS", name)`
is queried and reported. -/
def mainFrom (r : ruleimpl) (name : String) (calls : List Call) (ws : Workspace)
    (ro : RangeOrder) : Exit :=
  match evalFile r calls ws with
  | (_, .error err) => .fatal err
  | (_, .crash m) => .crashed m
  | (ws', .ok _) =>
    let res := ws'.GetFiles "MODS" name ro
    .queried res.1 res.2

/-- The handler that line 28-33 of `main` bind to `module`:
`rule(attrs = dict(srcs = attr.files(), deps = attr.modules()))`. -/
def moduleRule : ruleimpl :=
  { attrs := [("srcs", .files), ("deps", .modules [])], types := [] }

/-! ## Vocabulary of the statements -/

/-- The value supplied last for keyword `k`, if the keyword is supplied at all. -/
def lastValue : List (Value × Value) → String → Option Value
  | [], _ => Option.none
  | (.str key, v) :: rest, k =>
    match lastValue rest k with
    | some w => some w
    | Option.none => if key = k then some v else Option.none
  | (_, _) :: rest, k => lastValue rest k

/-- The string lists supplied under keywords other than `name`, one for each such
keyword occurrence, in the order supplied. -/
def declaredLists : List (Value × Value) → List (List String)
  | [] => []
  | (.str key, v) :: rest =>
    if key = "name" then declaredLists rest
    else
      match toStrings v with
      | .ok items => items :: declaredLists rest
      | .error _ => declaredLists rest
  | (_, _) :: rest => declaredLists rest

/-- Keys are strings and every value supplied for `name` is a string: the inputs
on which no type assertion of `ruleimpl.fn` fails. -/
def WellTyped (kwargs : List (Value × Value)) : Prop :=
  ∀ kv ∈ kwargs, ∃ key, kv.1 = Value.str key ∧ (key = "name" → ∃ s, kv.2 = Value.str s)

/-- Every keyword is `name` with a string value, or a schema attribute with a
list of strings as value. -/
def Accepted (r : ruleimpl) (kwargs : List (Value × Value)) : Prop :=
  ∀ kv ∈ kwargs, ∃ key, kv.1 = Value.str key ∧
    (key = "name" → ∃ s, kv.2 = Value.str s) ∧
    (key ≠ "name" → (∃ a, mapLookup r.attrs key = some a) ∧ ∃ items, toStrings kv.2 = .ok items)

/-- A workspace after a sequence of `RegisterModule` calls. -/
def registerAll (ws : Workspace) :
    List (String × String × List (String × filedep) × List (String × moduledep)) → Workspace
  | [] => ws
  | (fname, name, fd, md) :: rest => registerAll (ws.RegisterModule fname name fd md) rest

/-- Keys are strings: what the interpreter guarantees for the keywords of a call. -/
def KeysAreStrings (kwargs : List (Value × Value)) : Prop :=
  ∀ kv ∈ kwargs, ∃ key, kv.1 = Value.str key

/-- Every keyword of a call of `rule` is `type`, or `attrs` with a dict whose keys
are strings. -/
def RuleAccepted (kwargs : List (Value × Value)) : Prop :=
  ∀ kv ∈ kwargs, kv.1 = Value.str "type" ∨
    (kv.1 = Value.str "attrs" ∧
      ∃ items, kv.2 = Value.dict items ∧ ∀ e ∈ items, ∃ a, e.1 = Value.str a)

/-- The entries of the `attrs` mappings of a call of `rule`, in the order supplied. -/
def attrsItems : List (Value × Value) → List (Value × Value)
  | [] => []
  | (.str key, .dict items) :: rest =>
    if key = "attrs" then items ++ attrsItems rest else attrsItems rest
  | (_, _) :: rest => attrsItems rest

/-- Two keyword lists with the same keys in the same order that agree on every
value except possibly the values of `type`. -/
def SameButType (kw1 kw2 : List (Value × Value)) : Prop :=
  List.Forall₂ (fun a b => a.1 = b.1 ∧ (a.1 = Value.str "type" ∨ a.2 = b.2)) kw1 kw2

/-- Every keyword of a call of `attr.modules` is `types` with a list of strings. -/
def TypesAccepted (kwargs : List (Value × Value)) : Prop :=
  ∀ kv ∈ kwargs, kv.1 = Value.str "types" ∧ ∃ ts : List String, kv.2 = Value.list (ts.map Value.str)

/-- The strings of the `types` lists of a call of `attr.modules`, in the order
supplied. -/
def typesItems : List (Value × Value) → List String
  | [] => []
  | (_, v) :: rest =>
    match toStrings v with
    | .ok ts => ts ++ typesItems rest
    | .error _ => typesItems rest

/-- The strings that `r.types, _ = toStrings(v)` (line 121) stores: those of `v`,
or none when the conversion fails. -/
def typesOf (v : Value) : List String :=
  match toStrings v with
  | .ok ts => ts
  | .error _ => []

/-- The contract of `rule` on its keywords: every key is a string, and every value
supplied for `attrs` is a mapping (a dict) whose keys are strings. -/
def RuleContract (kwargs : List (Value × Value)) : Prop :=
  ∀ kv ∈ kwargs, ∃ key, kv.1 = Value.str key ∧
    (key = "attrs" → ∃ items, kv.2 = Value.dict items ∧ ∀ e ∈ items, ∃ a, e.1 = Value.str a)

/-! ## Inputs of the scenarios -/

/-- The call chain of a call written at the top level of the file `MODS`. -/
def threadMODS : Thread := ⟨[⟨"MODS"⟩]⟩

/-- The call chain of the call written inside the helper `empty` of the bootstrap
source (lines 35-36, evaluated under the file name `""`), the helper being called
from the top level of `MODS`. -/
def threadHelper : Thread := ⟨[⟨""⟩, ⟨"MODS"⟩]⟩

/-- The keywords `module(name="x", srcs=[], deps=[])` that `empty("x")` passes. -/
def kwEmpty : List (Value × Value) :=
  [(.str "name", .str "x"), (.str "srcs", .list []), (.str "deps", .list [])]

/-- The keywords `(name="a", srcs=1, bogus=[])`: a value that is not a list, then a
keyword that is not in the schema of the `module` rule. -/
def kwBadValueThenUnknown : List (Value × Value) :=
  [(.str "name", .str "a"), (.str "srcs", .int 1), (.str "bogus", .list [])]

/-- The keywords `(bogus=[])`: no name, and a keyword that is not in the schema of
the `module` rule. -/
def kwUnknownNoName : List (Value × Value) := [(.str "bogus", .list [])]

/-- The declaration `module(srcs=["c.go"])` in `MODS`, which lacks the name. -/
def declNoName : Call := ⟨threadMODS, [(.str "srcs", .list [.str "c.go"])]⟩

/-- A rule whose `deps` attribute is `attr.modules(types=["lib","bin"])`. -/
def typedRule : ruleimpl :=
  { attrs := [("srcs", .files), ("deps", .modules ["lib", "bin"])], types := [] }

/-- The declaration `module(name="a", srcs=["a.go","b.go"], deps=[])` in `MODS`. -/
def declA : Call :=
  ⟨threadMODS, [(.str "name", .str "a"), (.str "srcs", .list [.str "a.go", .str "b.go"]),
    (.str "deps", .list [])]⟩

/-- The declaration `module(name="b", srcs=[], deps=["a"])` in `MODS`. -/
def declB : Call :=
  ⟨threadMODS, [(.str "name", .str "b"), (.str "srcs", .list []),
    (.str "deps", .list [.str "a"])]⟩

/-- A rule with two attributes of files kind:
`rule(attrs = dict(srcs = attr.files(), hdrs = attr.files()))`. -/
def filesRule : ruleimpl :=
  { attrs := [("srcs", .files), ("hdrs", .files)], types := [] }

/-- The declaration `(name="a", srcs=["a.go"], hdrs=["a.h","b.h"])` in `MODS`. -/
def declFiles : Call :=
  ⟨threadMODS, [(.str "name", .str "a"), (.str "srcs", .list [.str "a.go"]),
    (.str "hdrs", .list [.str "a.h", .str "b.h"])]⟩

/-- The keywords of `rule(attrs=["srcs"])`: the value of `attrs` is a list, not a
dict. -/
def kwAttrsNotDict : List (Value × Value) :=
  [(.str "attrs", .list [.str "srcs"])]

/-- The keywords `(name="a", name="")`, as passed by `module(name="a", **{"name": ""})`. -/
def kwNameThenEmpty : List (Value × Value) :=
  [(.str "name", .str "a"), (.str "name", .str "")]

/-- The keywords `(name="", name="a")`, as passed by `module(name="", **{"name": "a"})`. -/
def kwEmptyThenName : List (Value × Value) :=
  [(.str "name", .str ""), (.str "name", .str "a")]

/-- A rule whose attribute `opts` is bound to a value that is neither descriptor:
`rule(attrs = dict(srcs = attr.files(), opts = 1))`. -/
def oddRule : ruleimpl :=
  { attrs := [("srcs", .files), ("opts", .int 1)], types := [] }

/-- The keywords `(name="a", srcs=["a.go"], opts=["x"])`. -/
def kwOdd : List (Value × Value) :=
  [(.str "name", .str "a"), (.str "srcs", .list [.str "a.go"]),
    (.str "opts", .list [.str "x"])]

/-- The keywords `(name="a", srcs=["x"], srcs=["y"])`, as passed by
`module(name="a", srcs=["x"], **{"srcs": ["y"]})`. -/
def kwRepeatedSrcs : List (Value × Value) :=
  [(.str "name", .str "a"), (.str "srcs", .list [.str "x"]), (.str "srcs", .list [.str "y"])]

/-- The keywords `(name="b", deps=["a"], deps=["c"])`, as passed by
`module(name="b", deps=["a"], **{"deps": ["c"]})`. -/
def kwRepeatedDeps : List (Value × Value) :=
  [(.str "name", .str "b"), (.str "deps", .list [.str "a"]), (.str "deps", .list [.str "c"])]

/-! ## Go maps: lemmas -/

theorem mapLookup_mapSet_same {K V : Type} [DecidableEq K] (m : List (K × V)) (k : K) (v : V) :
    mapLookup (mapSet m k v) k = some v := by
  induction m with
  | nil => simp [mapSet, mapLookup]
  | cons e rest ih =>
    obtain ⟨k', v'⟩ := e
    by_cases h : k' = k
    · simp [mapSet, mapLookup, h]
    · simp [mapSet, mapLookup, h, ih]

theorem mapLookup_mapSet_other {K V : Type} [DecidableEq K] (m : List (K × V)) (k k2 : K) (v : V)
    (hne : k ≠ k2) : mapLookup (mapSet m k v) k2 = mapLookup m k2 := by
  induction m with
  | nil => simp [mapSet, mapLookup, hne]
  | cons e rest ih =>
    obtain ⟨k', v'⟩ := e
    by_cases h : k' = k
    · subst h
      simp [mapSet, mapLookup, hne]
    · by_cases h2 : k' = k2
      · subst h2
        simp [mapSet, mapLookup, h]
      · simp [mapSet, mapLookup, h, h2, ih]

theorem mapSet_mapSet_same {K V : Type} [DecidableEq K] (m : List (K × V)) (k : K) (v w : V) :
    mapSet (mapSet m k v) k w = mapSet m k w := by
  induction m with
  | nil => simp [mapSet]
  | cons e rest ih =>
    obtain ⟨k', v'⟩ := e
    by_cases h : k' = k
    · simp [mapSet, h]
    · simp [mapSet, h, ih]

theorem mapKeys_mapSet_mem {K V : Type} [DecidableEq K] (m : List (K × V)) (k k2 : K) (v : V) :
    k2 ∈ mapKeys (mapSet m k v) ↔ k2 = k ∨ k2 ∈ mapKeys m := by
  induction m with
  | nil => simp [mapSet, mapKeys]
  | cons e rest ih =>
    obtain ⟨k', v'⟩ := e
    by_cases h : k' = k
    · subst h
      simp [mapSet, mapKeys]
    · have ih2 := ih
      simp only [mapKeys] at ih2
      simp only [mapSet, h, if_false, mapKeys, List.map_cons, List.mem_cons, ih2]
      tauto

theorem mapKeys_mapSet_nodup {K V : Type} [DecidableEq K] (m : List (K × V)) (k : K) (v : V)
    (hnd : (mapKeys m).Nodup) : (mapKeys (mapSet m k v)).Nodup := by
  induction m with
  | nil => simp [mapSet, mapKeys]
  | cons e rest ih =>
    obtain ⟨k', v'⟩ := e
    have hnd2 : k' ∉ mapKeys rest ∧ (mapKeys rest).Nodup := by
      simpa [mapKeys] using hnd
    by_cases h : k' = k
    · subst h
      simpa [mapSet, mapKeys] using hnd
    · have hmem := mapKeys_mapSet_mem rest k k' v
      have hk : k' ∉ mapKeys (mapSet rest k v) := by
        rw [hmem]
        intro hc
        rcases hc with hc | hc
        · exact h hc
        · exact hnd2.1 hc
      have := ih hnd2.2
      simp only [mapSet, h, if_false]
      simp only [mapKeys, List.map_cons, List.nodup_cons]
      exact ⟨hk, this⟩

theorem mapLookup_none_iff {K V : Type} [DecidableEq K] (m : List (K × V)) (k : K) :
    mapLookup m k = Option.none ↔ k ∉ mapKeys m := by
  induction m with
  | nil => simp [mapLookup, mapKeys]
  | cons e rest ih =>
    obtain ⟨k', v'⟩ := e
    by_cases h : k' = k
    · simp [mapLookup, mapKeys, h]
    · have ih2 := ih
      simp only [mapKeys] at ih2
      simp only [mapLookup, h, if_false, ih2, mapKeys, List.map_cons, List.mem_cons]
      constructor
      · intro h1 h2
        rcases h2 with h2 | h2
        · exact h h2.symm
        · exact h1 h2
      · intro h1 h2
        exact h1 (Or.inr h2)

theorem mem_iff_mapLookup {K V : Type} [DecidableEq K] (m : List (K × V)) (k : K) (v : V)
    (hnd : (mapKeys m).Nodup) : (k, v) ∈ m ↔ mapLookup m k = some v := by
  induction m with
  | nil => simp [mapLookup]
  | cons e rest ih =>
    obtain ⟨k', v'⟩ := e
    have hnd2 : k' ∉ mapKeys rest ∧ (mapKeys rest).Nodup := by
      simpa [mapKeys] using hnd
    by_cases h : k' = k
    · subst h
      have hno : ∀ w, (k', w) ∉ rest := by
        intro w hw
        apply hnd2.1
        simp only [mapKeys, List.mem_map]
        exact ⟨(k', w), hw, rfl⟩
      simp only [List.mem_cons, Prod.mk.injEq, true_and, mapLookup, if_true, Option.some.injEq]
      constructor
      · intro h1
        rcases h1 with h1 | h1
        · exact h1.symm
        · exact absurd h1 (hno v)
      · intro h1
        exact Or.inl h1.symm
    · have hk : ¬ k = k' := fun hc => h hc.symm
      simp only [List.mem_cons, Prod.mk.injEq, hk, false_and, false_or, mapLookup, h, if_false]
      exact ih hnd2.2

/-! ## Registry: lemmas -/

theorem appendItems_eq (files items : List String) : appendItems files items = files ++ items := by
  induction items generalizing files with
  | nil => simp [appendItems]
  | cons x rest ih => simp [appendItems, ih]

theorem collectFiles_eq (files : List String) (entries : List (String × filedep)) :
    collectFiles files entries = files ++ (entries.map (fun e => e.2.items)).flatten := by
  induction entries generalizing files with
  | nil => simp [collectFiles]
  | cons e rest ih =>
    obtain ⟨k, fd⟩ := e
    simp [collectFiles, ih, appendItems_eq]

theorem pick_nil (ro : RangeOrder) : ro.pick [] = [] :=
  List.Perm.eq_nil (ro.perm [])

theorem pick_singleton (ro : RangeOrder) (e : String × filedep) : ro.pick [e] = [e] :=
  List.perm_singleton.mp (ro.perm [e])

theorem lookup_RegisterModule_same (ws : Workspace) (fname name : String)
    (fd : List (String × filedep)) (md : List (String × moduledep)) :
    (ws.RegisterModule fname name fd md).lookup (fname, name) = some ⟨fname, name, fd, md⟩ := by
  simp [Workspace.RegisterModule, Workspace.lookup, mapLookup_mapSet_same]

theorem lookup_RegisterModule_other (ws : Workspace) (fname name : String)
    (fd : List (String × filedep)) (md : List (String × moduledep)) (key : String × String)
    (hne : key ≠ (fname, name)) :
    (ws.RegisterModule fname name fd md).lookup key = ws.lookup key := by
  have hne2 : (fname, name) ≠ key := fun h => hne h.symm
  cases hm : ws.modules with
  | none =>
    simp [Workspace.RegisterModule, Workspace.lookup, hm, mapSet, mapLookup, hne2]
  | some m =>
    simp [Workspace.RegisterModule, Workspace.lookup, hm, mapLookup_mapSet_other _ _ _ _ hne2]

theorem getFiles_of_lookup (ws : Workspace) (fname name : String) (m : Module) (ro : RangeOrder)
    (h : ws.lookup (fname, name) = some m) :
    ws.GetFiles fname name ro = (((ro.pick m.filedeps).map (fun e => e.2.items)).flatten, Option.none) := by
  simp [Workspace.GetFiles, h, collectFiles_eq]

theorem getFiles_of_lookup_none (ws : Workspace) (fname name : String) (ro : RangeOrder)
    (h : ws.lookup (fname, name) = Option.none) :
    ws.GetFiles fname name ro = ([], some "Unable to find module") := by
  simp [Workspace.GetFiles, h]

theorem getFiles_congr (ws ws' : Workspace) (fname name : String) (ro : RangeOrder)
    (h : ws'.lookup (fname, name) = ws.lookup (fname, name)) :
    ws'.GetFiles fname name ro = ws.GetFiles fname name ro := by
  simp [Workspace.GetFiles, h]

theorem lookup_registerAll_other (key : String × String)
    (regs : List (String × String × List (String × filedep) × List (String × moduledep)))
    (ws : Workspace) (h : ∀ reg ∈ regs, (reg.1, reg.2.1) ≠ key) :
    (registerAll ws regs).lookup key = ws.lookup key := by
  induction regs generalizing ws with
  | nil => rfl
  | cons reg rest ih =>
    obtain ⟨f, n, fd, md⟩ := reg
    have h1 : (f, n) ≠ key := h (f, n, fd, md) (List.mem_cons_self _ _)
    have h2 : ∀ reg ∈ rest, (reg.1, reg.2.1) ≠ key :=
      fun reg hr => h reg (List.mem_cons_of_mem _ hr)
    simp only [registerAll]
    rw [ih _ h2]
    exact lookup_RegisterModule_other ws f n fd md key (fun hc => h1 hc.symm)

/-! ## The keyword loop: lemmas -/

theorem fnLoop_cons_ok_inv (r : ruleimpl) (kv : Value × Value) (rest : List (Value × Value))
    (d0 d : Decl) (h : r.fnLoop (kv :: rest) d0 = .ok d) :
    ∃ key, kv.1 = .str key ∧
      ((key = "name" ∧ ∃ s, kv.2 = .str s ∧ r.fnLoop rest { d0 with name := s } = .ok d) ∨
       (key ≠ "name" ∧ ∃ attr items, mapLookup r.attrs key = some attr ∧
          toStrings kv.2 = .ok items ∧ r.fnLoop rest (recordAttr attr key items d0) = .ok d)) := by
  obtain ⟨k, v⟩ := kv
  cases k with
  | str key =>
    refine ⟨key, rfl, ?_⟩
    by_cases hn : key = "name"
    · left
      refine ⟨hn, ?_⟩
      cases v with
      | str s => exact ⟨s, rfl, by simpa [ruleimpl.fnLoop, hn] using h⟩
      | _ => simp [ruleimpl.fnLoop, hn] at h
    · right
      refine ⟨hn, ?_⟩
      simp only [ruleimpl.fnLoop, hn, if_false] at h
      cases ha : mapLookup r.attrs key with
      | none => simp [ha] at h
      | some attr =>
        cases ht : toStrings v with
        | error e => simp [ha, ht] at h
        | ok items => exact ⟨attr, items, rfl, rfl, by simpa [ha, ht] using h⟩
  | _ => simp [ruleimpl.fnLoop] at h

theorem fnLoop_cons_name (r : ruleimpl) (s : String) (rest : List (Value × Value)) (d0 : Decl) :
    r.fnLoop ((.str "name", .str s) :: rest) d0 = r.fnLoop rest { d0 with name := s } := by
  simp [ruleimpl.fnLoop]

theorem fnLoop_cons_attr (r : ruleimpl) (key : String) (v attr : Value) (items : List String)
    (rest : List (Value × Value)) (d0 : Decl) (hn : key ≠ "name")
    (ha : mapLookup r.attrs key = some attr) (ht : toStrings v = .ok items) :
    r.fnLoop ((.str key, v) :: rest) d0 = r.fnLoop rest (recordAttr attr key items d0) := by
  simp [ruleimpl.fnLoop, hn, ha, ht]

theorem fnLoop_cons_unknown (r : ruleimpl) (key : String) (v : Value)
    (rest : List (Value × Value)) (d0 : Decl) (hn : key ≠ "name")
    (ha : mapLookup r.attrs key = Option.none) :
    r.fnLoop ((.str key, v) :: rest) d0 = .error ("Unexpected key: " ++ key) := by
  simp [ruleimpl.fnLoop, hn, ha]

theorem recordAttr_name (attr : Value) (key : String) (items : List String) (d : Decl) :
    (recordAttr attr key items d).name = d.name := by
  cases attr <;> rfl

theorem recordAttr_fd_of_not_files (attr : Value) (key : String) (items : List String) (d : Decl)
    (h : attr ≠ .files) : (recordAttr attr key items d).filedeps = d.filedeps := by
  cases attr <;> first | rfl | exact absurd rfl h

theorem recordAttr_md_of_not_modules (attr : Value) (key : String) (items : List String)
    (d : Decl) (h : ∀ ts, attr ≠ .modules ts) :
    (recordAttr attr key items d).moduledeps = d.moduledeps := by
  cases attr <;> first | rfl | exact absurd rfl (h _)

theorem recordAttr_fd_lookup_other (attr : Value) (key k : String) (items : List String)
    (d : Decl) (hne : key ≠ k) :
    mapLookup (recordAttr attr key items d).filedeps k = mapLookup d.filedeps k := by
  by_cases h : attr = .files
  · subst h
    exact mapLookup_mapSet_other _ _ _ _ hne
  · rw [recordAttr_fd_of_not_files _ _ _ _ h]

theorem recordAttr_md_lookup_other (attr : Value) (key k : String) (items : List String)
    (d : Decl) (hne : key ≠ k) :
    mapLookup (recordAttr attr key items d).moduledeps k = mapLookup d.moduledeps k := by
  by_cases h : ∃ ts, attr = .modules ts
  · obtain ⟨ts, rfl⟩ := h
    exact mapLookup_mapSet_other _ _ _ _ hne
  · rw [recordAttr_md_of_not_modules _ _ _ _ (fun ts hc => h ⟨ts, hc⟩)]

theorem recordAttr_fd_lookup_twice (attr0 attr : Value) (key k : String)
    (items0 items : List String) (d : Decl) (hsame : key = k → attr0 = attr) :
    mapLookup (recordAttr attr k items (recordAttr attr0 key items0 d)).filedeps k
      = mapLookup (recordAttr attr k items d).filedeps k := by
  by_cases h : attr = .files
  · subst h
    show mapLookup (mapSet _ k _) k = mapLookup (mapSet _ k _) k
    rw [mapLookup_mapSet_same, mapLookup_mapSet_same]
  · rw [recordAttr_fd_of_not_files _ _ _ _ h, recordAttr_fd_of_not_files _ _ _ _ h]
    by_cases hk : key = k
    · have h0 : attr0 ≠ .files := by rw [hsame hk]; exact h
      rw [recordAttr_fd_of_not_files _ _ _ _ h0]
    · exact recordAttr_fd_lookup_other _ _ _ _ _ hk

theorem recordAttr_md_lookup_twice (attr0 attr : Value) (key k : String)
    (items0 items : List String) (d : Decl) (hsame : key = k → attr0 = attr) :
    mapLookup (recordAttr attr k items (recordAttr attr0 key items0 d)).moduledeps k
      = mapLookup (recordAttr attr k items d).moduledeps k := by
  by_cases h : ∃ ts, attr = .modules ts
  · obtain ⟨ts, rfl⟩ := h
    show mapLookup (mapSet _ k _) k = mapLookup (mapSet _ k _) k
    rw [mapLookup_mapSet_same, mapLookup_mapSet_same]
  · have h' : ∀ ts, attr ≠ .modules ts := fun ts hc => h ⟨ts, hc⟩
    rw [recordAttr_md_of_not_modules _ _ _ _ h', recordAttr_md_of_not_modules _ _ _ _ h']
    by_cases hk : key = k
    · have h0 : ∀ ts, attr0 ≠ .modules ts := by rw [hsame hk]; exact h'
      rw [recordAttr_md_of_not_modules _ _ _ _ h0]
    · exact recordAttr_md_lookup_other _ _ _ _ _ hk

theorem lastValue_cons_str (key : String) (v : Value) (rest : List (Value × Value)) (k : String) :
    lastValue ((.str key, v) :: rest) k =
      match lastValue rest k with
      | some w => some w
      | Option.none => if key = k then some v else Option.none := by
  simp [lastValue]

/-- What a successful run of the keyword loop leaves at key `k`: what recording the
value supplied last for `k` alone would leave. -/
theorem fnLoop_ok_lookup (r : ruleimpl) (kwargs : List (Value × Value)) (d0 d : Decl)
    (h : r.fnLoop kwargs d0 = .ok d) (k : String) :
    ((lastValue kwargs k = Option.none ∨ k = "name") →
        mapLookup d.filedeps k = mapLookup d0.filedeps k ∧
        mapLookup d.moduledeps k = mapLookup d0.moduledeps k) ∧
    (∀ v, k ≠ "name" → lastValue kwargs k = some v →
        ∃ attr items, mapLookup r.attrs k = some attr ∧ toStrings v = .ok items ∧
          mapLookup d.filedeps k = mapLookup (recordAttr attr k items d0).filedeps k ∧
          mapLookup d.moduledeps k = mapLookup (recordAttr attr k items d0).moduledeps k) := by
  induction kwargs generalizing d0 with
  | nil =>
    simp only [ruleimpl.fnLoop, Outcome.ok.injEq] at h
    subst h
    simp [lastValue]
  | cons kv rest ih =>
    obtain ⟨key, hkey, hcase⟩ := fnLoop_cons_ok_inv r kv rest d0 d h
    obtain ⟨k0, v0⟩ := kv
    simp only at hkey
    subst hkey
    rw [lastValue_cons_str]
    rcases hcase with ⟨hn, s, hv, hrest⟩ | ⟨hn, attr0, items0, ha0, ht0, hrest⟩
    · -- the keyword is `name`
      simp only at hv
      subst hv
      obtain ⟨ih1, ih2⟩ := ih _ hrest
      constructor
      · intro hk
        apply ih1
        rcases hk with hk | hk
        · left
          cases hl : lastValue rest k with
          | none => rfl
          | some w => simp [hl] at hk
        · right; exact hk
      · intro v hkn hl
        have hne : ¬ key = k := by rw [hn]; exact fun hc => hkn hc.symm
        cases hl2 : lastValue rest k with
        | none => simp [hl2, hne] at hl
        | some w =>
          simp only [hl2, Option.some.injEq] at hl
          subst hl
          obtain ⟨attr, items, h1, h2, h3, h4⟩ := ih2 w hkn hl2
          refine ⟨attr, items, h1, h2, ?_, ?_⟩
          · rw [h3]; cases attr <;> rfl
          · rw [h4]; cases attr <;> rfl
    · -- the keyword is an attribute of the schema
      simp only at ht0
      obtain ⟨ih1, ih2⟩ := ih _ hrest
      constructor
      · intro hk
        have hne : key ≠ k := by
          rcases hk with hk | hk
          · intro hc
            cases hl : lastValue rest k with
            | none => simp [hl, hc] at hk
            | some w => simp [hl] at hk
          · rw [hk]; exact hn
        have hk2 : lastValue rest k = Option.none ∨ k = "name" := by
          rcases hk with hk | hk
          · left
            cases hl : lastValue rest k with
            | none => rfl
            | some w => simp [hl] at hk
          · right; exact hk
        obtain ⟨e1, e2⟩ := ih1 hk2
        rw [e1, e2]
        exact ⟨recordAttr_fd_lookup_other _ _ _ _ _ hne, recordAttr_md_lookup_other _ _ _ _ _ hne⟩
      · intro v hkn hl
        cases hl2 : lastValue rest k with
        | none =>
          by_cases hk : key = k
          · simp only [hl2, hk, if_true, Option.some.injEq] at hl
            subst hl
            subst hk
            obtain ⟨e1, e2⟩ := ih1 (Or.inl hl2)
            exact ⟨attr0, items0, ha0, ht0, e1, e2⟩
          · simp [hl2, hk] at hl
        | some w =>
          simp only [hl2, Option.some.injEq] at hl
          subst hl
          obtain ⟨attr, items, h1, h2, h3, h4⟩ := ih2 w hkn hl2
          have hsame : key = k → attr0 = attr := by
            intro hk
            rw [hk] at ha0
            rw [ha0] at h1
            exact Option.some.inj h1
          refine ⟨attr, items, h1, h2, ?_, ?_⟩
          · rw [h3]; exact recordAttr_fd_lookup_twice _ _ _ _ _ _ _ hsame
          · rw [h4]; exact recordAttr_md_lookup_twice _ _ _ _ _ _ _ hsame

theorem fnLoop_ok_name (r : ruleimpl) (kwargs : List (Value × Value)) (d0 d : Decl)
    (h : r.fnLoop kwargs d0 = .ok d) :
    (lastValue kwargs "name" = Option.none → d.name = d0.name) ∧
    (∀ w, lastValue kwargs "name" = some w → w = .str d.name) := by
  induction kwargs generalizing d0 with
  | nil =>
    simp only [ruleimpl.fnLoop, Outcome.ok.injEq] at h
    subst h
    simp [lastValue]
  | cons kv rest ih =>
    obtain ⟨key, hkey, hcase⟩ := fnLoop_cons_ok_inv r kv rest d0 d h
    obtain ⟨k0, v0⟩ := kv
    simp only at hkey
    subst hkey
    rw [lastValue_cons_str]
    rcases hcase with ⟨hn, s, hv, hrest⟩ | ⟨hn, attr0, items0, ha0, ht0, hrest⟩
    · simp only at hv
      subst hv
      subst hn
      obtain ⟨ih1, ih2⟩ := ih _ hrest
      cases hl : lastValue rest "name" with
      | none =>
        have := ih1 hl
        simp only at this
        simp [this]
      | some w => simpa using ih2 w hl
    · obtain ⟨ih1, ih2⟩ := ih _ hrest
      cases hl : lastValue rest "name" with
      | none =>
        have := ih1 hl
        rw [recordAttr_name] at this
        simp [hn, this]
      | some w => simpa using ih2 w hl

theorem recordAttr_fd_nodup (attr : Value) (key : String) (items : List String) (d : Decl)
    (h : (mapKeys d.filedeps).Nodup) : (mapKeys (recordAttr attr key items d).filedeps).Nodup := by
  by_cases ha : attr = .files
  · subst ha
    exact mapKeys_mapSet_nodup _ _ _ h
  · rw [recordAttr_fd_of_not_files _ _ _ _ ha]
    exact h

theorem fnLoop_ok_nodup (r : ruleimpl) (kwargs : List (Value × Value)) (d0 d : Decl)
    (h : r.fnLoop kwargs d0 = .ok d) (hnd : (mapKeys d0.filedeps).Nodup) :
    (mapKeys d.filedeps).Nodup := by
  induction kwargs generalizing d0 with
  | nil =>
    simp only [ruleimpl.fnLoop, Outcome.ok.injEq] at h
    subst h
    exact hnd
  | cons kv rest ih =>
    obtain ⟨key, _, hcase⟩ := fnLoop_cons_ok_inv r kv rest d0 d h
    rcases hcase with ⟨_, s, _, hrest⟩ | ⟨_, attr0, items0, _, _, hrest⟩
    · exact ih _ hrest hnd
    · exact ih _ hrest (recordAttr_fd_nodup _ _ _ _ hnd)

theorem fnLoop_ok_accepted (r : ruleimpl) (kwargs : List (Value × Value)) (d0 d : Decl)
    (h : r.fnLoop kwargs d0 = .ok d) : Accepted r kwargs := by
  induction kwargs generalizing d0 with
  | nil => intro kv hkv; simp at hkv
  | cons kv rest ih =>
    obtain ⟨key, hkey, hcase⟩ := fnLoop_cons_ok_inv r kv rest d0 d h
    intro kv' hkv'
    rcases List.mem_cons.mp hkv' with heq | hmem
    · subst heq
      refine ⟨key, hkey, ?_, ?_⟩
      · intro hn
        rcases hcase with ⟨_, s, hv, _⟩ | ⟨hn2, _⟩
        · exact ⟨s, hv⟩
        · exact absurd hn hn2
      · intro hn
        rcases hcase with ⟨hn2, _⟩ | ⟨_, attr0, items0, ha, ht, _⟩
        · exact absurd hn2 hn
        · exact ⟨⟨attr0, ha⟩, ⟨items0, ht⟩⟩
    · rcases hcase with ⟨_, s, _, hrest⟩ | ⟨_, attr0, items0, _, _, hrest⟩
      · exact ih _ hrest kv' hmem
      · exact ih _ hrest kv' hmem

theorem fnLoop_accepted_ok (r : ruleimpl) (kwargs : List (Value × Value)) (d0 : Decl)
    (h : Accepted r kwargs) : ∃ d, r.fnLoop kwargs d0 = .ok d := by
  induction kwargs generalizing d0 with
  | nil => exact ⟨d0, rfl⟩
  | cons kv rest ih =>
    have hrest : Accepted r rest := fun kv' hkv' => h kv' (List.mem_cons_of_mem _ hkv')
    obtain ⟨key, hkey, hname, hattr⟩ := h kv (List.mem_cons_self _ _)
    obtain ⟨k0, v0⟩ := kv
    simp only at hkey hname hattr
    subst hkey
    by_cases hn : key = "name"
    · obtain ⟨s, hs⟩ := hname hn
      subst hs
      subst hn
      rw [fnLoop_cons_name]
      exact ih _ hrest
    · obtain ⟨⟨a, ha⟩, ⟨items, ht⟩⟩ := hattr hn
      rw [fnLoop_cons_attr r key v0 a items rest d0 hn ha ht]
      exact ih _ hrest

theorem fnLoop_wellTyped_no_crash (r : ruleimpl) (kwargs : List (Value × Value)) (d0 : Decl)
    (h : WellTyped kwargs) (c : String) : r.fnLoop kwargs d0 ≠ .crash c := by
  induction kwargs generalizing d0 with
  | nil => simp [ruleimpl.fnLoop]
  | cons kv rest ih =>
    have hrest : WellTyped rest := fun kv' hkv' => h kv' (List.mem_cons_of_mem _ hkv')
    obtain ⟨key, hkey, hname⟩ := h kv (List.mem_cons_self _ _)
    obtain ⟨k0, v0⟩ := kv
    simp only at hkey hname
    subst hkey
    by_cases hn : key = "name"
    · obtain ⟨s, hs⟩ := hname hn
      subst hs
      subst hn
      rw [fnLoop_cons_name]
      exact ih _ hrest
    · cases ha : mapLookup r.attrs key with
      | none => rw [fnLoop_cons_unknown r key v0 rest d0 hn ha]; simp
      | some a =>
        cases ht : toStrings v0 with
        | error e => simp [ruleimpl.fnLoop, hn, ha, ht]
        | ok items =>
          rw [fnLoop_cons_attr r key v0 a items rest d0 hn ha ht]
          exact ih _ hrest

theorem fnLoop_append (r : ruleimpl) (pre post : List (Value × Value)) (d0 d1 : Decl)
    (h : r.fnLoop pre d0 = .ok d1) : r.fnLoop (pre ++ post) d0 = r.fnLoop post d1 := by
  induction pre generalizing d0 with
  | nil =>
    simp only [ruleimpl.fnLoop, Outcome.ok.injEq] at h
    subst h
    rfl
  | cons kv rest ih =>
    obtain ⟨key, hkey, hcase⟩ := fnLoop_cons_ok_inv r kv rest d0 d1 h
    obtain ⟨k0, v0⟩ := kv
    simp only at hkey
    subst hkey
    rcases hcase with ⟨hn, s, hv, hrest⟩ | ⟨hn, attr0, items0, ha0, ht0, hrest⟩
    · simp only at hv
      subst hv
      subst hn
      rw [List.cons_append, fnLoop_cons_name]
      exact ih _ hrest
    · simp only at ht0
      rw [List.cons_append, fnLoop_cons_attr r key v0 attr0 items0 _ d0 hn ha0 ht0]
      exact ih _ hrest

/-! ## The handler: lemmas -/

theorem fn_ok_inv (r : ruleimpl) (thread : Thread) (kwargs : List (Value × Value))
    (ws ws' : Workspace) (out : Value) (h : r.fn thread kwargs ws = (ws', .ok out)) :
    ∃ d caller outer, r.fnLoop kwargs ⟨"", [], []⟩ = .ok d ∧ d.name ≠ "" ∧
      thread.callers = caller :: outer ∧
      ws' = ws.RegisterModule caller.filename d.name d.filedeps d.moduledeps ∧
      out = .none := by
  unfold ruleimpl.fn at h
  cases hl : r.fnLoop kwargs ⟨"", [], []⟩ with
  | error e => simp [hl] at h
  | crash c => simp [hl] at h
  | ok d =>
    simp only [hl] at h
    by_cases hn : d.name = ""
    · simp [hn] at h
    · simp only [hn, if_false] at h
      cases hc : thread.callers with
      | nil => simp [hc] at h
      | cons caller outer =>
        simp only [hc, Prod.mk.injEq, Outcome.ok.injEq] at h
        exact ⟨d, caller, outer, rfl, hn, rfl, h.1.symm, h.2.symm⟩

theorem fn_not_ok_ws (r : ruleimpl) (thread : Thread) (kwargs : List (Value × Value))
    (ws : Workspace) (h : (r.fn thread kwargs ws).2.isOk = false) :
    (r.fn thread kwargs ws).1 = ws := by
  unfold ruleimpl.fn at h ⊢
  cases hl : r.fnLoop kwargs ⟨"", [], []⟩ with
  | error e => rfl
  | crash c => rfl
  | ok d =>
    simp only [hl] at h ⊢
    by_cases hn : d.name = ""
    · simp [hn]
    · simp only [hn, if_false] at h ⊢
      cases hc : thread.callers with
      | nil => rfl
      | cons caller outer => simp [hc, Outcome.isOk] at h

theorem lastValue_mem (kwargs : List (Value × Value)) (k : String) (v : Value)
    (h : lastValue kwargs k = some v) : (Value.str k, v) ∈ kwargs := by
  induction kwargs with
  | nil => simp [lastValue] at h
  | cons kv rest ih =>
    obtain ⟨k0, v0⟩ := kv
    cases k0 with
    | str key =>
      rw [lastValue_cons_str] at h
      cases hl : lastValue rest k with
      | none =>
        by_cases hk : key = k
        · simp only [hl, hk, if_true, Option.some.injEq] at h
          subst h; subst hk
          exact List.mem_cons_self _ _
        · simp [hl, hk] at h
      | some w =>
        simp only [hl, Option.some.injEq] at h
        subst h
        exact List.mem_cons_of_mem _ (ih hl)
    | _ =>
      simp only [lastValue] at h
      exact List.mem_cons_of_mem _ (ih h)

theorem mapSet_of_not_mem {K V : Type} [DecidableEq K] (m : List (K × V)) (k : K) (v : V)
    (h : k ∉ mapKeys m) : mapSet m k v = m ++ [(k, v)] := by
  induction m with
  | nil => rfl
  | cons e rest ih =>
    obtain ⟨k', v'⟩ := e
    have h1 : ¬ k' = k := by
      intro hc; apply h; simp [mapKeys, hc]
    have h2 : k ∉ mapKeys rest := by
      intro hc; apply h; simp only [mapKeys, List.map_cons, List.mem_cons]; right; exact hc
    simp [mapSet, h1, ih h2]

/-- Without repeated keywords and with files kind throughout, the file map lists
the declared lists in the order supplied. -/
theorem fnLoop_ok_declared (r : ruleimpl) (kwargs : List (Value × Value)) (d0 d : Decl)
    (h : r.fnLoop kwargs d0 = .ok d)
    (hfiles : ∀ kv ∈ kwargs, kv.1 ≠ Value.str "name" →
      ∃ k, kv.1 = Value.str k ∧ mapLookup r.attrs k = some Value.files)
    (hnd : (kwargs.map Prod.fst).Nodup)
    (hfresh : ∀ kv ∈ kwargs, ∀ k, kv.1 = Value.str k → k ∉ mapKeys d0.filedeps) :
    d.filedeps.map (fun e => e.2.items)
      = d0.filedeps.map (fun e => e.2.items) ++ declaredLists kwargs := by
  induction kwargs generalizing d0 with
  | nil =>
    simp only [ruleimpl.fnLoop, Outcome.ok.injEq] at h
    subst h
    simp [declaredLists]
  | cons kv rest ih =>
    obtain ⟨key, hkey, hcase⟩ := fnLoop_cons_ok_inv r kv rest d0 d h
    obtain ⟨k0, v0⟩ := kv
    simp only at hkey
    subst hkey
    have hfiles2 : ∀ kv ∈ rest, kv.1 ≠ Value.str "name" →
        ∃ k, kv.1 = Value.str k ∧ mapLookup r.attrs k = some Value.files :=
      fun kv hkv => hfiles kv (List.mem_cons_of_mem _ hkv)
    have hnd1 : Value.str key ∉ rest.map Prod.fst ∧ (rest.map Prod.fst).Nodup := by
      simpa using hnd
    rcases hcase with ⟨hn, s, hv, hrest⟩ | ⟨hn, attr0, items0, ha0, ht0, hrest⟩
    · have hfresh2 : ∀ kv ∈ rest, ∀ k, kv.1 = Value.str k → k ∉ mapKeys d0.filedeps :=
        fun kv hkv => hfresh kv (List.mem_cons_of_mem _ hkv)
      rw [ih _ hrest hfiles2 hnd1.2 hfresh2]
      simp [declaredLists, hn]
    · simp only at ht0
      obtain ⟨k1, hk1, hf⟩ := hfiles (Value.str key, v0) (List.mem_cons_self _ _)
        (by simpa using hn)
      simp only [Value.str.injEq] at hk1
      subst hk1
      rw [ha0] at hf
      have hattr : attr0 = Value.files := Option.some.inj hf
      subst hattr
      have hnew : key ∉ mapKeys d0.filedeps :=
        hfresh (Value.str key, v0) (List.mem_cons_self _ _) key rfl
      have hd1 : (recordAttr Value.files key items0 d0).filedeps
          = d0.filedeps ++ [(key, ⟨items0⟩)] := mapSet_of_not_mem _ _ _ hnew
      have hfresh2 : ∀ kv ∈ rest, ∀ k, kv.1 = Value.str k →
          k ∉ mapKeys (recordAttr Value.files key items0 d0).filedeps := by
        intro kv hkv k hk
        rw [hd1]
        simp only [mapKeys, List.map_append, List.map_cons, List.map_nil, List.mem_append,
          List.mem_singleton, not_or]
        constructor
        · exact hfresh kv (List.mem_cons_of_mem _ hkv) k hk
        · intro hc
          subst hc
          apply hnd1.1
          rw [← hk]
          exact List.mem_map_of_mem _ hkv
      rw [ih _ hrest hfiles2 hnd1.2 hfresh2, hd1]
      simp [declaredLists, hn, ht0]

theorem rule_bootstrap :
    attrFiles [] [] = .ok .files ∧ attrModules [] [] = .ok (.modules []) ∧
    Workspace.rule []
      [(.str "attrs", .dict [(.str "srcs", .files), (.str "deps", .modules [])])]
      = .ok moduleRule :=
  ⟨rfl, rfl, rfl⟩

theorem fn_of_loop_error (r : ruleimpl) (thread : Thread) (kwargs : List (Value × Value))
    (ws : Workspace) (e : String) (h : r.fnLoop kwargs ⟨"", [], []⟩ = .error e) :
    r.fn thread kwargs ws = (ws, .error e) := by
  simp [ruleimpl.fn, h]

theorem fn_of_loop_crash (r : ruleimpl) (thread : Thread) (kwargs : List (Value × Value))
    (ws : Workspace) (c : String) (h : r.fnLoop kwargs ⟨"", [], []⟩ = .crash c) :
    r.fn thread kwargs ws = (ws, .crash c) := by
  simp [ruleimpl.fn, h]

theorem fn_of_loop_ok_noname (r : ruleimpl) (thread : Thread) (kwargs : List (Value × Value))
    (ws : Workspace) (d : Decl) (h : r.fnLoop kwargs ⟨"", [], []⟩ = .ok d) (hn : d.name = "") :
    r.fn thread kwargs ws = (ws, .error "name parameter is required") := by
  simp [ruleimpl.fn, h, hn]

/-- A handler call whose keyword loop does not finish normally: not ok, workspace
unchanged, and an error (not a crash) when the keywords are well typed. -/
theorem fn_of_loop_not_ok (r : ruleimpl) (thread : Thread) (kwargs : List (Value × Value))
    (ws : Workspace) (h : ∀ d, r.fnLoop kwargs ⟨"", [], []⟩ ≠ .ok d) :
    (r.fn thread kwargs ws).1 = ws ∧ (r.fn thread kwargs ws).2.isOk = false ∧
    (WellTyped kwargs → (r.fn thread kwargs ws).2.isError = true) := by
  cases hl : r.fnLoop kwargs ⟨"", [], []⟩ with
  | ok d => exact absurd hl (h d)
  | error e =>
    rw [fn_of_loop_error r thread kwargs ws e hl]
    exact ⟨rfl, rfl, fun _ => rfl⟩
  | crash c =>
    rw [fn_of_loop_crash r thread kwargs ws c hl]
    exact ⟨rfl, rfl, fun hw => absurd hl (fnLoop_wellTyped_no_crash r kwargs _ hw c)⟩

theorem unexpected_key_ne (k : String) (s : String) (hs : s.data.head? ≠ some 'U') :
    "Unexpected key: " ++ k ≠ s := by
  intro h
  apply hs
  rw [← h]
  simp [String.data_append]

theorem evalFile_cons_ok (r : ruleimpl) (c : Call) (rest : List Call) (ws ws1 : Workspace)
    (v : Value) (h : r.fn c.thread c.kwargs ws = (ws1, .ok v)) :
    evalFile r (c :: rest) ws = evalFile r rest ws1 := by
  simp [evalFile, h]

theorem evalFile_cons_error (r : ruleimpl) (c : Call) (rest : List Call) (ws ws1 : Workspace)
    (e : String) (h : r.fn c.thread c.kwargs ws = (ws1, .error e)) :
    evalFile r (c :: rest) ws = (ws1, .error e) := by
  simp [evalFile, h]

theorem evalFile_cons_crash (r : ruleimpl) (c : Call) (rest : List Call) (ws ws1 : Workspace)
    (m : String) (h : r.fn c.thread c.kwargs ws = (ws1, .crash m)) :
    evalFile r (c :: rest) ws = (ws1, .crash m) := by
  simp [evalFile, h]

theorem evalFile_error_split (r : ruleimpl) (calls : List Call) (ws : Workspace) (e : String)
    (h : (evalFile r calls ws).2 = .error e) :
    ∃ (done : List Call) (failing : Call) (rest : List Call),
      calls = done ++ failing :: rest ∧
      evalFile r done ws = ((evalFile r calls ws).1, .ok Value.none) ∧
      r.fn failing.thread failing.kwargs (evalFile r calls ws).1
        = ((evalFile r calls ws).1, .error e) := by
  induction calls generalizing ws with
  | nil => simp [evalFile] at h
  | cons c rest ih =>
    cases hfn : r.fn c.thread c.kwargs ws with
    | mk ws1 o =>
      cases o with
      | ok v =>
        rw [evalFile_cons_ok r c rest ws ws1 v hfn] at h ⊢
        obtain ⟨done, failing, rest', hsplit, hdone, hfail⟩ := ih ws1 h
        refine ⟨c :: done, failing, rest', by rw [hsplit]; rfl, ?_, hfail⟩
        rw [evalFile_cons_ok r c done ws ws1 v hfn]
        exact hdone
      | error e' =>
        rw [evalFile_cons_error r c rest ws ws1 e' hfn] at h ⊢
        simp only [Outcome.error.injEq] at h
        subst h
        have hws : ws1 = ws := by
          have := fn_not_ok_ws r c.thread c.kwargs ws (by rw [hfn]; rfl)
          rw [hfn] at this
          exact this
        subst hws
        exact ⟨[], c, rest, rfl, rfl, hfn⟩
      | crash m =>
        rw [evalFile_cons_crash r c rest ws ws1 m hfn] at h
        simp at h

theorem lastValue_isSome_of_mem (kwargs : List (Value × Value)) (k : String) (v : Value)
    (h : (Value.str k, v) ∈ kwargs) : ∃ w, lastValue kwargs k = some w := by
  induction kwargs with
  | nil => simp at h
  | cons kv rest ih =>
    obtain ⟨k0, v0⟩ := kv
    rcases List.mem_cons.mp h with heq | hmem
    · simp only [Prod.mk.injEq] at heq
      obtain ⟨h1, h2⟩ := heq
      subst h1; subst h2
      rw [lastValue_cons_str]
      cases hl : lastValue rest k with
      | none => exact ⟨v, by simp⟩
      | some w => exact ⟨w, rfl⟩
    · obtain ⟨w, hw⟩ := ih hmem
      cases k0 with
      | str key =>
        rw [lastValue_cons_str, hw]
        exact ⟨w, rfl⟩
      | _ => exact ⟨w, by simpa [lastValue] using hw⟩

theorem lastValue_of_mem_nodup (kwargs : List (Value × Value)) (k : String) (v : Value)
    (hnd : (kwargs.map Prod.fst).Nodup) (h : (Value.str k, v) ∈ kwargs) :
    lastValue kwargs k = some v := by
  obtain ⟨w, hw⟩ := lastValue_isSome_of_mem kwargs k v h
  have hw2 := lastValue_mem kwargs k w hw
  rw [hw]
  have hinj : ∀ a ∈ kwargs, ∀ b ∈ kwargs, a.1 = b.1 → a = b :=
    List.inj_on_of_nodup_map hnd
  have := hinj _ hw2 _ h rfl
  simp only [Prod.mk.injEq, true_and] at this
  rw [this]

theorem recordAttr_md_nodup (attr : Value) (key : String) (items : List String) (d : Decl)
    (h : (mapKeys d.moduledeps).Nodup) :
    (mapKeys (recordAttr attr key items d).moduledeps).Nodup := by
  by_cases ha : ∃ ts, attr = .modules ts
  · obtain ⟨ts, rfl⟩ := ha
    exact mapKeys_mapSet_nodup _ _ _ h
  · rw [recordAttr_md_of_not_modules _ _ _ _ (fun ts hc => ha ⟨ts, hc⟩)]
    exact h

theorem fnLoop_ok_md_nodup (r : ruleimpl) (kwargs : List (Value × Value)) (d0 d : Decl)
    (h : r.fnLoop kwargs d0 = .ok d) (hnd : (mapKeys d0.moduledeps).Nodup) :
    (mapKeys d.moduledeps).Nodup := by
  induction kwargs generalizing d0 with
  | nil =>
    simp only [ruleimpl.fnLoop, Outcome.ok.injEq] at h
    subst h
    exact hnd
  | cons kv rest ih =>
    obtain ⟨key, _, hcase⟩ := fnLoop_cons_ok_inv r kv rest d0 d h
    rcases hcase with ⟨_, s, _, hrest⟩ | ⟨_, attr0, items0, _, _, hrest⟩
    · exact ih _ hrest hnd
    · exact ih _ hrest (recordAttr_md_nodup _ _ _ _ hnd)

/-- From empty maps: what the keyword loop leaves at each key. -/
theorem fnLoop_ok_partition (r : ruleimpl) (kwargs : List (Value × Value)) (d : Decl)
    (h : r.fnLoop kwargs ⟨"", [], []⟩ = .ok d) :
    (∀ k v, k ≠ "name" → lastValue kwargs k = some v →
      ∃ items, toStrings v = .ok items ∧
        (mapLookup r.attrs k = some Value.files →
          mapLookup d.filedeps k = some ⟨items⟩ ∧ mapLookup d.moduledeps k = Option.none) ∧
        (∀ ts, mapLookup r.attrs k = some (Value.modules ts) →
          mapLookup d.moduledeps k = some ⟨ts, items⟩ ∧ mapLookup d.filedeps k = Option.none)) ∧
    (∀ k, k ∈ mapKeys d.filedeps →
      k ≠ "name" ∧ (∃ v, lastValue kwargs k = some v) ∧
        mapLookup r.attrs k = some Value.files) ∧
    (∀ k, k ∈ mapKeys d.moduledeps →
      k ≠ "name" ∧ (∃ v, lastValue kwargs k = some v) ∧
        ∃ ts, mapLookup r.attrs k = some (Value.modules ts)) := by
  refine ⟨?_, ?_, ?_⟩
  · intro k v hkn hlv
    obtain ⟨_, hlast⟩ := fnLoop_ok_lookup r kwargs _ d h k
    obtain ⟨attr, items, ha, ht, hfd, hmd⟩ := hlast v hkn hlv
    refine ⟨items, ht, ?_, ?_⟩
    · intro hf
      rw [ha] at hf
      have hattr : attr = Value.files := Option.some.inj hf
      subst hattr
      rw [hfd, hmd]
      exact ⟨mapLookup_mapSet_same _ _ _, rfl⟩
    · intro ts hm
      rw [ha] at hm
      have hattr : attr = Value.modules ts := Option.some.inj hm
      subst hattr
      rw [hfd, hmd]
      exact ⟨mapLookup_mapSet_same _ _ _, rfl⟩
  · intro k hk
    obtain ⟨hsame, hlast⟩ := fnLoop_ok_lookup r kwargs _ d h k
    have hsome : mapLookup d.filedeps k ≠ Option.none :=
      fun hc => ((mapLookup_none_iff _ _).mp hc) hk
    by_cases hkn : k = "name"
    · exact absurd (by rw [(hsame (Or.inr hkn)).1]; rfl) hsome
    · cases hlv : lastValue kwargs k with
      | none => exact absurd (by rw [(hsame (Or.inl hlv)).1]; rfl) hsome
      | some v =>
        obtain ⟨attr, items, ha, _, hfd, _⟩ := hlast v hkn hlv
        refine ⟨hkn, ⟨v, rfl⟩, ?_⟩
        by_cases hattr : attr = Value.files
        · rw [ha, hattr]
        · rw [hfd, recordAttr_fd_of_not_files _ _ _ _ hattr] at hsome
          exact absurd rfl hsome
  · intro k hk
    obtain ⟨hsame, hlast⟩ := fnLoop_ok_lookup r kwargs _ d h k
    have hsome : mapLookup d.moduledeps k ≠ Option.none :=
      fun hc => ((mapLookup_none_iff _ _).mp hc) hk
    by_cases hkn : k = "name"
    · exact absurd (by rw [(hsame (Or.inr hkn)).2]; rfl) hsome
    · cases hlv : lastValue kwargs k with
      | none => exact absurd (by rw [(hsame (Or.inl hlv)).2]; rfl) hsome
      | some v =>
        obtain ⟨attr, items, ha, _, _, hmd⟩ := hlast v hkn hlv
        refine ⟨hkn, ⟨v, rfl⟩, ?_⟩
        by_cases hattr : ∃ ts, attr = Value.modules ts
        · obtain ⟨ts, rfl⟩ := hattr
          exact ⟨ts, ha⟩
        · rw [hmd, recordAttr_md_of_not_modules _ _ _ _ (fun ts hc => hattr ⟨ts, hc⟩)] at hsome
          exact absurd rfl hsome

theorem toStringsLoop_map_str (ss acc : List String) :
    toStringsLoop (ss.map Value.str) acc = .ok (acc ++ ss) := by
  induction ss generalizing acc with
  | nil => simp [toStringsLoop]
  | cons s rest ih => simp [toStringsLoop, ih]

theorem toStringsLoop_ok_inv (elems : List Value) (acc out : List String)
    (h : toStringsLoop elems acc = .ok out) :
    ∃ ss : List String, elems = ss.map Value.str ∧ out = acc ++ ss := by
  induction elems generalizing acc with
  | nil =>
    simp only [toStringsLoop, Except.ok.injEq] at h
    exact ⟨[], rfl, by simp [h]⟩
  | cons e rest ih =>
    cases e with
    | str s =>
      simp only [toStringsLoop] at h
      obtain ⟨ss, h1, h2⟩ := ih _ h
      exact ⟨s :: ss, by simp [h1], by simp [h2]⟩
    | _ => simp [toStringsLoop] at h

theorem toStringsLoop_error_msg (elems : List Value) (acc : List String) (e : String)
    (h : toStringsLoop elems acc = .error e) : e = "Not a string list" := by
  induction elems generalizing acc with
  | nil => simp [toStringsLoop] at h
  | cons x rest ih =>
    cases x with
    | str s =>
      simp only [toStringsLoop] at h
      exact ih _ h
    | _ =>
      simp only [toStringsLoop, Except.error.injEq] at h
      exact h.symm

theorem toStrings_list_str (ss : List String) :
    toStrings (Value.list (ss.map Value.str)) = .ok ss := by
  simp [toStrings, toStringsLoop_map_str]

theorem toStrings_ok_iff (v : Value) (out : List String) :
    toStrings v = .ok out ↔ v = Value.list (out.map Value.str) := by
  constructor
  · intro h
    cases v with
    | list elems =>
      simp only [toStrings] at h
      obtain ⟨ss, h1, h2⟩ := toStringsLoop_ok_inv elems [] out h
      simp only [List.nil_append] at h2
      subst h2
      rw [h1]
    | _ => simp [toStrings] at h
  · intro h
    rw [h]
    exact toStrings_list_str out

theorem attrModulesElems_map_str (ss acc : List String) :
    attrModulesElems (ss.map Value.str) acc = .ok (acc ++ ss) := by
  induction ss generalizing acc with
  | nil => simp [attrModulesElems]
  | cons s rest ih => simp [attrModulesElems, ih]

theorem attrModulesElems_cases (elems : List Value) (acc : List String) :
    (∃ ss : List String, elems = ss.map Value.str ∧
      attrModulesElems elems acc = .ok (acc ++ ss)) ∨
    ((∃ x ∈ elems, ∀ s, x ≠ Value.str s) ∧
      attrModulesElems elems acc = .error "Expected string") := by
  induction elems generalizing acc with
  | nil => exact Or.inl ⟨[], rfl, by simp [attrModulesElems]⟩
  | cons e rest ih =>
    cases e with
    | str s =>
      rcases ih (acc ++ [s]) with ⟨ss, h1, h2⟩ | ⟨⟨x, hx, hne⟩, h2⟩
      · exact Or.inl ⟨s :: ss, by simp [h1], by simp [attrModulesElems, h2]⟩
      · exact Or.inr ⟨⟨x, List.mem_cons_of_mem _ hx, hne⟩, by simp [attrModulesElems, h2]⟩
    | _ =>
      exact Or.inr ⟨⟨_, List.mem_cons_self _ _, fun s h => by cases h⟩,
        by simp [attrModulesElems]⟩

theorem attrModulesLoop_cons_types (ts : List String) (rest : List (Value × Value))
    (acc : List String) :
    attrModulesLoop ((Value.str "types", Value.list (ts.map Value.str)) :: rest) acc
      = attrModulesLoop rest (acc ++ ts) := by
  simp [attrModulesLoop, attrModulesElems_map_str]

theorem attrModulesLoop_cons_other (k : String) (v : Value) (rest : List (Value × Value))
    (acc : List String) (hk : k ≠ "types") :
    attrModulesLoop ((Value.str k, v) :: rest) acc = .error ("Unexpected key: " ++ k) := by
  simp [attrModulesLoop, hk]

theorem attrModulesLoop_cons_not_list (v : Value) (rest : List (Value × Value))
    (acc : List String) (hv : ∀ elems, v ≠ Value.list elems) :
    attrModulesLoop ((Value.str "types", v) :: rest) acc = .error "Expected list" := by
  cases v with
  | list elems => exact absurd rfl (hv elems)
  | _ => simp [attrModulesLoop]

theorem attrModulesLoop_cons_not_string (elems : List Value) (rest : List (Value × Value))
    (acc : List String) (hx : ∃ x ∈ elems, ∀ s, x ≠ Value.str s) :
    attrModulesLoop ((Value.str "types", Value.list elems) :: rest) acc
      = .error "Expected string" := by
  rcases attrModulesElems_cases elems acc with ⟨ss, h1, _⟩ | ⟨_, h2⟩
  · exfalso
    obtain ⟨x, hmem, hne⟩ := hx
    rw [h1] at hmem
    simp only [List.mem_map] at hmem
    obtain ⟨s, _, hs⟩ := hmem
    exact hne s hs.symm
  · simp [attrModulesLoop, h2]

theorem attrModulesLoop_accepted (kwargs : List (Value × Value)) (acc : List String)
    (h : TypesAccepted kwargs) :
    attrModulesLoop kwargs acc = .ok (acc ++ typesItems kwargs) := by
  induction kwargs generalizing acc with
  | nil => simp [attrModulesLoop, typesItems]
  | cons kv rest ih =>
    have hrest : TypesAccepted rest := fun kv' hkv' => h kv' (List.mem_cons_of_mem _ hkv')
    obtain ⟨hk, ts, hv⟩ := h kv (List.mem_cons_self _ _)
    obtain ⟨k0, v0⟩ := kv
    simp only at hk hv
    subst hk; subst hv
    rw [attrModulesLoop_cons_types, ih _ hrest]
    simp [typesItems, toStrings_list_str]

theorem attrModulesLoop_ok_accepted (kwargs : List (Value × Value)) (acc out : List String)
    (h : attrModulesLoop kwargs acc = .ok out) : TypesAccepted kwargs := by
  induction kwargs generalizing acc with
  | nil => intro kv hkv; simp at hkv
  | cons kv rest ih =>
    obtain ⟨k0, v0⟩ := kv
    cases k0 with
    | str key =>
      by_cases hk : key = "types"
      · subst hk
        cases v0 with
        | list elems =>
          rcases attrModulesElems_cases elems acc with ⟨ss, h1, h2⟩ | ⟨_, h2⟩
          · subst h1
            rw [attrModulesLoop_cons_types] at h
            intro kv' hkv'
            rcases List.mem_cons.mp hkv' with heq | hmem
            · subst heq
              exact ⟨rfl, ss, rfl⟩
            · exact ih _ h kv' hmem
          · simp [attrModulesLoop, h2] at h
        | _ => simp [attrModulesLoop] at h
      · rw [attrModulesLoop_cons_other key v0 rest acc hk] at h
        cases h
    | _ => simp [attrModulesLoop] at h

theorem attrModules_of_loop_error (args : List Value) (kwargs : List (Value × Value))
    (e : String) (h : attrModulesLoop kwargs [] = .error e) :
    attrModules args kwargs = .error e := by
  simp [attrModules, h]

theorem attrModulesLoop_append (before rest : List (Value × Value)) (acc : List String)
    (h : TypesAccepted before) :
    attrModulesLoop (before ++ rest) acc = attrModulesLoop rest (acc ++ typesItems before) := by
  induction before generalizing acc with
  | nil => simp [typesItems]
  | cons kv tl ih =>
    have htl : TypesAccepted tl := fun kv' hkv' => h kv' (List.mem_cons_of_mem _ hkv')
    obtain ⟨hk, ts, hv⟩ := h kv (List.mem_cons_self _ _)
    obtain ⟨k0, v0⟩ := kv
    simp only at hk hv
    subst hk; subst hv
    rw [List.cons_append, attrModulesLoop_cons_types, ih _ htl]
    simp [typesItems, toStrings_list_str]

theorem lastValue_append (xs ys : List (Value × Value)) (k : String) :
    lastValue (xs ++ ys) k =
      match lastValue ys k with
      | some w => some w
      | Option.none => lastValue xs k := by
  induction xs with
  | nil =>
    simp only [List.nil_append, lastValue]
    cases lastValue ys k <;> rfl
  | cons kv rest ih =>
    obtain ⟨k0, v0⟩ := kv
    cases k0 with
    | str key =>
      rw [List.cons_append, lastValue_cons_str, lastValue_cons_str, ih]
      cases lastValue ys k with
      | none => rfl
      | some w => rfl
    | _ =>
      simp only [List.cons_append, lastValue]
      exact ih

theorem ruleAttrsLoop_cons_str (a : String) (v : Value) (rest : List (Value × Value))
    (attrs : List (String × Value)) :
    ruleAttrsLoop ((Value.str a, v) :: rest) attrs = ruleAttrsLoop rest (mapSet attrs a v) := by
  simp [ruleAttrsLoop]

theorem ruleAttrsLoop_strkeys_ok (items : List (Value × Value)) (attrs0 : List (String × Value))
    (h : ∀ e ∈ items, ∃ a, e.1 = Value.str a) :
    ∃ attrs, ruleAttrsLoop items attrs0 = .ok attrs := by
  induction items generalizing attrs0 with
  | nil => exact ⟨attrs0, rfl⟩
  | cons e rest ih =>
    obtain ⟨a, ha⟩ := h e (List.mem_cons_self _ _)
    obtain ⟨k0, v0⟩ := e
    simp only at ha
    subst ha
    rw [ruleAttrsLoop_cons_str]
    exact ih _ (fun e' he' => h e' (List.mem_cons_of_mem _ he'))

theorem ruleAttrsLoop_ok_spec (items : List (Value × Value)) (attrs0 attrs : List (String × Value))
    (h : ruleAttrsLoop items attrs0 = .ok attrs) :
    (∀ a, mapLookup attrs a =
      match lastValue items a with
      | some w => some w
      | Option.none => mapLookup attrs0 a) ∧
    ((mapKeys attrs0).Nodup → (mapKeys attrs).Nodup) := by
  induction items generalizing attrs0 with
  | nil =>
    simp only [ruleAttrsLoop, Outcome.ok.injEq] at h
    subst h
    exact ⟨fun a => by simp [lastValue], fun hnd => hnd⟩
  | cons e rest ih =>
    obtain ⟨k0, v0⟩ := e
    cases k0 with
    | str key =>
      rw [ruleAttrsLoop_cons_str] at h
      obtain ⟨ih1, ih2⟩ := ih _ h
      refine ⟨?_, fun hnd => ih2 (mapKeys_mapSet_nodup _ _ _ hnd)⟩
      intro a
      rw [ih1 a, lastValue_cons_str]
      cases hl : lastValue rest a with
      | some w => rfl
      | none =>
        by_cases hk : key = a
        · subst hk
          simp [mapLookup_mapSet_same]
        · simp [hk, mapLookup_mapSet_other _ _ _ _ hk]
    | _ => simp [ruleAttrsLoop] at h

theorem ruleAttrsLoop_not_error (items : List (Value × Value)) (attrs0 : List (String × Value))
    (e : String) : ruleAttrsLoop items attrs0 ≠ .error e := by
  induction items generalizing attrs0 with
  | nil => simp [ruleAttrsLoop]
  | cons x rest ih =>
    obtain ⟨k0, v0⟩ := x
    cases k0 with
    | str key =>
      rw [ruleAttrsLoop_cons_str]
      exact ih _
    | _ => simp [ruleAttrsLoop]

theorem ruleLoop_cons_attrs (items : List (Value × Value)) (attrs : List (String × Value))
    (rest : List (Value × Value)) (r : ruleimpl)
    (h : ruleAttrsLoop items r.attrs = .ok attrs) :
    ruleLoop ((Value.str "attrs", Value.dict items) :: rest) r
      = ruleLoop rest { r with attrs := attrs } := by
  simp [ruleLoop, h]

theorem ruleLoop_cons_type (v : Value) (rest : List (Value × Value)) (r : ruleimpl) :
    ruleLoop ((Value.str "type", v) :: rest) r
      = ruleLoop rest { r with types := typesOf v } := by
  cases h : toStrings v <;> simp [ruleLoop, typesOf, h]

theorem ruleLoop_cons_unknown (k : String) (v : Value) (rest : List (Value × Value))
    (r : ruleimpl) (h1 : k ≠ "attrs") (h2 : k ≠ "type") :
    ruleLoop ((Value.str k, v) :: rest) r = .error ("Unexpected key: " ++ k) := by
  simp [ruleLoop, h1, h2]

theorem ruleLoop_cons_ok_inv (kv : Value × Value) (rest : List (Value × Value))
    (r0 r : ruleimpl) (h : ruleLoop (kv :: rest) r0 = .ok r) :
    (kv.1 = Value.str "attrs" ∧ ∃ items attrs, kv.2 = Value.dict items ∧
        ruleAttrsLoop items r0.attrs = .ok attrs ∧
        ruleLoop rest { r0 with attrs := attrs } = .ok r) ∨
    (kv.1 = Value.str "type" ∧
        ruleLoop rest { r0 with types := typesOf kv.2 } = .ok r) := by
  obtain ⟨k0, v0⟩ := kv
  cases k0 with
  | str key =>
    by_cases h1 : key = "attrs"
    · subst h1
      left
      refine ⟨rfl, ?_⟩
      cases v0 with
      | dict items =>
        cases hl : ruleAttrsLoop items r0.attrs with
        | ok attrs =>
          rw [ruleLoop_cons_attrs items attrs rest r0 hl] at h
          exact ⟨items, attrs, rfl, hl, h⟩
        | error e => simp [ruleLoop, hl] at h
        | crash c => simp [ruleLoop, hl] at h
      | _ => simp [ruleLoop] at h
    · by_cases h2 : key = "type"
      · subst h2
        right
        rw [ruleLoop_cons_type] at h
        exact ⟨rfl, h⟩
      · rw [ruleLoop_cons_unknown key v0 rest r0 h1 h2] at h
        cases h
  | _ => simp [ruleLoop] at h

theorem ruleLoop_ok_keys (kwargs : List (Value × Value)) (r0 r : ruleimpl)
    (h : ruleLoop kwargs r0 = .ok r) :
    ∀ kv ∈ kwargs, kv.1 = Value.str "attrs" ∨ kv.1 = Value.str "type" := by
  induction kwargs generalizing r0 with
  | nil => intro kv hkv; simp at hkv
  | cons kv rest ih =>
    intro kv' hkv'
    rcases ruleLoop_cons_ok_inv kv rest r0 r h with ⟨hk, _, _, _, _, hrest⟩ | ⟨hk, hrest⟩
    · rcases List.mem_cons.mp hkv' with heq | hmem
      · subst heq; exact Or.inl hk
      · exact ih _ hrest kv' hmem
    · rcases List.mem_cons.mp hkv' with heq | hmem
      · subst heq; exact Or.inr hk
      · exact ih _ hrest kv' hmem

theorem ruleLoop_accepted_ok (kwargs : List (Value × Value)) (r0 : ruleimpl)
    (h : RuleAccepted kwargs) : ∃ r, ruleLoop kwargs r0 = .ok r := by
  induction kwargs generalizing r0 with
  | nil => exact ⟨r0, rfl⟩
  | cons kv rest ih =>
    have hrest : RuleAccepted rest := fun kv' hkv' => h kv' (List.mem_cons_of_mem _ hkv')
    obtain ⟨k0, v0⟩ := kv
    rcases h (k0, v0) (List.mem_cons_self _ _) with hk | ⟨hk, items, hv, hkeys⟩
    · simp only at hk
      subst hk
      rw [ruleLoop_cons_type]
      exact ih _ hrest
    · simp only at hk hv
      subst hk; subst hv
      obtain ⟨attrs, ha⟩ := ruleAttrsLoop_strkeys_ok items r0.attrs hkeys
      rw [ruleLoop_cons_attrs items attrs rest r0 ha]
      exact ih _ hrest

theorem ruleLoop_append (before rest : List (Value × Value)) (r0 r1 : ruleimpl)
    (h : ruleLoop before r0 = .ok r1) : ruleLoop (before ++ rest) r0 = ruleLoop rest r1 := by
  induction before generalizing r0 with
  | nil =>
    simp only [ruleLoop, Outcome.ok.injEq] at h
    subst h
    rfl
  | cons kv tl ih =>
    obtain ⟨k0, v0⟩ := kv
    rcases ruleLoop_cons_ok_inv (k0, v0) tl r0 r1 h with
      ⟨hk, items, attrs, hv, ha, hrest⟩ | ⟨hk, hrest⟩
    · simp only at hk hv
      subst hk; subst hv
      rw [List.cons_append, ruleLoop_cons_attrs items attrs _ r0 ha]
      exact ih _ hrest
    · simp only at hk
      subst hk
      rw [List.cons_append, ruleLoop_cons_type]
      exact ih _ hrest

theorem ruleLoop_ok_attrs (kwargs : List (Value × Value)) (r0 r : ruleimpl)
    (h : ruleLoop kwargs r0 = .ok r) :
    (∀ a, mapLookup r.attrs a =
      match lastValue (attrsItems kwargs) a with
      | some w => some w
      | Option.none => mapLookup r0.attrs a) ∧
    ((mapKeys r0.attrs).Nodup → (mapKeys r.attrs).Nodup) := by
  induction kwargs generalizing r0 with
  | nil =>
    simp only [ruleLoop, Outcome.ok.injEq] at h
    subst h
    exact ⟨fun a => by simp [attrsItems, lastValue], fun hnd => hnd⟩
  | cons kv rest ih =>
    obtain ⟨k0, v0⟩ := kv
    rcases ruleLoop_cons_ok_inv (k0, v0) rest r0 r h with
      ⟨hk, items, attrs, hv, ha, hrest⟩ | ⟨hk, hrest⟩
    · simp only at hk hv
      subst hk; subst hv
      obtain ⟨ih1, ih2⟩ := ih _ hrest
      obtain ⟨hs1, hs2⟩ := ruleAttrsLoop_ok_spec items r0.attrs attrs ha
      refine ⟨?_, fun hnd => ih2 (hs2 hnd)⟩
      intro a
      rw [ih1 a]
      simp only [attrsItems, if_true]
      rw [lastValue_append]
      cases hl : lastValue (attrsItems rest) a with
      | some w => rfl
      | none => exact hs1 a
    · simp only at hk
      subst hk
      obtain ⟨ih1, ih2⟩ := ih _ hrest
      refine ⟨?_, fun hnd => ih2 hnd⟩
      intro a
      rw [ih1 a]
      have : attrsItems ((Value.str "type", v0) :: rest) = attrsItems rest := by
        cases v0 <;> simp [attrsItems]
      rw [this]

theorem ruleLoop_ok_types (kwargs : List (Value × Value)) (r0 r : ruleimpl)
    (h : ruleLoop kwargs r0 = .ok r) :
    r.types =
      match lastValue kwargs "type" with
      | some v => typesOf v
      | Option.none => r0.types := by
  induction kwargs generalizing r0 with
  | nil =>
    simp only [ruleLoop, Outcome.ok.injEq] at h
    subst h
    simp [lastValue]
  | cons kv rest ih =>
    obtain ⟨k0, v0⟩ := kv
    rcases ruleLoop_cons_ok_inv (k0, v0) rest r0 r h with
      ⟨hk, items, attrs, hv, ha, hrest⟩ | ⟨hk, hrest⟩
    · simp only at hk
      subst hk
      rw [ih _ hrest, lastValue_cons_str]
      cases hl : lastValue rest "type" with
      | some w => rfl
      | none => simp
    · simp only at hk
      subst hk
      rw [ih _ hrest, lastValue_cons_str]
      cases hl : lastValue rest "type" with
      | some w => rfl
      | none => simp

theorem ruleLoop_types_only (kwargs : List (Value × Value)) (r0 : ruleimpl)
    (h : ∀ kv ∈ kwargs, kv.1 = Value.str "type") :
    ∃ r, ruleLoop kwargs r0 = .ok r ∧ r.attrs = r0.attrs := by
  induction kwargs generalizing r0 with
  | nil => exact ⟨r0, rfl, rfl⟩
  | cons kv rest ih =>
    have hk := h kv (List.mem_cons_self _ _)
    obtain ⟨k0, v0⟩ := kv
    simp only at hk
    subst hk
    rw [ruleLoop_cons_type]
    obtain ⟨r, h1, h2⟩ := ih { r0 with types := typesOf v0 }
      (fun kv' hkv' => h kv' (List.mem_cons_of_mem _ hkv'))
    exact ⟨r, h1, h2⟩

theorem ruleLoop_sameButType (kw1 kw2 : List (Value × Value)) (h : SameButType kw1 kw2)
    (r01 r02 r1 : ruleimpl) (hattrs : r01.attrs = r02.attrs)
    (hok : ruleLoop kw1 r01 = .ok r1) :
    ∃ r2, ruleLoop kw2 r02 = .ok r2 ∧ r2.attrs = r1.attrs := by
  unfold SameButType at h
  induction h generalizing r01 r02 with
  | nil =>
    simp only [ruleLoop, Outcome.ok.injEq] at hok
    subst hok
    exact ⟨r02, rfl, hattrs.symm⟩
  | @cons a b l1 l2 hab _ ih =>
    obtain ⟨ka, va⟩ := a
    obtain ⟨kb, vb⟩ := b
    obtain ⟨hkeys, hvals⟩ := hab
    simp only at hkeys hvals
    subst hkeys
    rcases ruleLoop_cons_ok_inv (ka, va) l1 r01 r1 hok with
      ⟨hk, items, attrs, hv, ha, hrest⟩ | ⟨hk, hrest⟩
    · simp only at hk hv
      subst hk; subst hv
      have hvb : Value.dict items = vb := by
        rcases hvals with hc | hc
        · simp at hc
        · exact hc
      subst hvb
      rw [hattrs] at ha
      rw [ruleLoop_cons_attrs items attrs l2 r02 ha]
      exact ih { r01 with attrs := attrs } { r02 with attrs := attrs } rfl hrest
    · simp only at hk
      subst hk
      rw [ruleLoop_cons_type]
      exact ih { r01 with types := typesOf va } { r02 with types := typesOf vb } hattrs hrest

theorem fnLoop_attrs_congr (r1 r2 : ruleimpl) (h : r1.attrs = r2.attrs)
    (kwargs : List (Value × Value)) (d : Decl) : r1.fnLoop kwargs d = r2.fnLoop kwargs d := by
  induction kwargs generalizing d with
  | nil => rfl
  | cons kv rest ih =>
    obtain ⟨k0, v0⟩ := kv
    cases k0 with
    | str key =>
      by_cases hn : key = "name"
      · subst hn
        cases v0 with
        | str s =>
          rw [fnLoop_cons_name, fnLoop_cons_name]
          exact ih _
        | _ => simp [ruleimpl.fnLoop]
      · cases ha : mapLookup r2.attrs key with
        | none =>
          rw [fnLoop_cons_unknown r2 key v0 rest d hn ha,
            fnLoop_cons_unknown r1 key v0 rest d hn (by rw [h]; exact ha)]
        | some attr =>
          cases ht : toStrings v0 with
          | error e => simp [ruleimpl.fnLoop, hn, ha, h, ht]
          | ok items =>
            rw [fnLoop_cons_attr r2 key v0 attr items rest d hn ha ht,
              fnLoop_cons_attr r1 key v0 attr items rest d hn (by rw [h]; exact ha) ht]
            exact ih _
    | _ => simp [ruleimpl.fnLoop]

theorem fn_attrs_congr (r1 r2 : ruleimpl) (h : r1.attrs = r2.attrs) (thread : Thread)
    (kwargs : List (Value × Value)) (ws : Workspace) :
    r1.fn thread kwargs ws = r2.fn thread kwargs ws := by
  simp only [ruleimpl.fn, fnLoop_attrs_congr r1 r2 h]

theorem fn_of_loop_ok (r : ruleimpl) (caller : Frame) (outer : List Frame)
    (kwargs : List (Value × Value)) (ws : Workspace) (d : Decl)
    (h : r.fnLoop kwargs ⟨"", [], []⟩ = .ok d) (hn : d.name ≠ "") :
    r.fn ⟨caller :: outer⟩ kwargs ws
      = (ws.RegisterModule caller.filename d.name d.filedeps d.moduledeps, .ok Value.none) := by
  simp [ruleimpl.fn, h, hn]

theorem toStrings_error_msg (v : Value) (e : String) (h : toStrings v = .error e) :
    e = "Not a list" ∨ e = "Not a string list" := by
  cases v with
  | list elems =>
    right
    simp only [toStrings] at h
    exact toStringsLoop_error_msg elems [] e h
  | _ =>
    left
    simp only [toStrings, Except.error.injEq] at h
    exact h.symm

theorem fnLoop_error_msg (r : ruleimpl) (kwargs : List (Value × Value)) (d : Decl) (e : String)
    (h : r.fnLoop kwargs d = .error e) :
    (∃ k, e = "Unexpected key: " ++ k) ∨ e = "Not a list" ∨ e = "Not a string list" := by
  induction kwargs generalizing d with
  | nil => simp [ruleimpl.fnLoop] at h
  | cons kv rest ih =>
    obtain ⟨k0, v0⟩ := kv
    cases k0 with
    | str key =>
      by_cases hn : key = "name"
      · subst hn
        cases v0 with
        | str s =>
          rw [fnLoop_cons_name] at h
          exact ih _ h
        | _ => simp [ruleimpl.fnLoop] at h
      · cases ha : mapLookup r.attrs key with
        | none =>
          rw [fnLoop_cons_unknown r key v0 rest d hn ha] at h
          simp only [Outcome.error.injEq] at h
          exact Or.inl ⟨key, h.symm⟩
        | some attr =>
          cases ht : toStrings v0 with
          | error e' =>
            have : r.fnLoop ((Value.str key, v0) :: rest) d = .error e' := by
              simp [ruleimpl.fnLoop, hn, ha, ht]
            rw [this] at h
            simp only [Outcome.error.injEq] at h
            subst h
            exact Or.inr (toStrings_error_msg v0 e' ht)
          | ok items =>
            rw [fnLoop_cons_attr r key v0 attr items rest d hn ha ht] at h
            exact ih _ h
    | _ => simp [ruleimpl.fnLoop] at h

theorem fn_ok_iff (r : ruleimpl) (caller : Frame) (outer : List Frame)
    (kwargs : List (Value × Value)) (ws : Workspace) :
    (r.fn ⟨caller :: outer⟩ kwargs ws).2.isOk = true ↔
      (Accepted r kwargs ∧ ∃ n, lastValue kwargs "name" = some (Value.str n) ∧ n ≠ "") := by
  constructor
  · intro h
    cases hfn : r.fn ⟨caller :: outer⟩ kwargs ws with
    | mk ws' o =>
      rw [hfn] at h
      cases o with
      | ok out =>
        obtain ⟨d, _, _, hl, hn, _, _, _⟩ := fn_ok_inv r _ kwargs ws ws' out hfn
        refine ⟨fnLoop_ok_accepted r kwargs _ d hl, d.name, ?_, hn⟩
        obtain ⟨h1, h2⟩ := fnLoop_ok_name r kwargs _ d hl
        cases hlv : lastValue kwargs "name" with
        | none => exact absurd (h1 hlv) hn
        | some w => rw [h2 w hlv]
      | error e => simp [Outcome.isOk] at h
      | crash c => simp [Outcome.isOk] at h
  · rintro ⟨hacc, n, hname, hn⟩
    obtain ⟨d, hd⟩ := fnLoop_accepted_ok r kwargs ⟨"", [], []⟩ hacc
    have hdn : d.name = n := by
      have := (fnLoop_ok_name r kwargs _ d hd).2 _ hname
      simp only [Value.str.injEq] at this
      exact this.symm
    rw [fn_of_loop_ok r caller outer kwargs ws d hd (by rw [hdn]; exact hn)]
    rfl

theorem accepted_perm (r : ruleimpl) (kw1 kw2 : List (Value × Value)) (h : kw1.Perm kw2)
    (hacc : Accepted r kw1) : Accepted r kw2 :=
  fun kv hkv => hacc kv (h.mem_iff.mpr hkv)

theorem lastValue_agree_of_perm (kw1 kw2 : List (Value × Value)) (k : String)
    (h : kw1.Perm kw2)
    (hsame : ∀ v w, (Value.str k, v) ∈ kw1 → (Value.str k, w) ∈ kw1 → v = w) :
    lastValue kw1 k = lastValue kw2 k := by
  cases h1 : lastValue kw1 k with
  | none =>
    cases h2 : lastValue kw2 k with
    | none => rfl
    | some w =>
      have hm := h.mem_iff.mpr (lastValue_mem kw2 k w h2)
      obtain ⟨w', hw'⟩ := lastValue_isSome_of_mem kw1 k w hm
      rw [h1] at hw'
      cases hw'
  | some v =>
    have hm1 := lastValue_mem kw1 k v h1
    obtain ⟨w, hw⟩ := lastValue_isSome_of_mem kw2 k v (h.mem_iff.mp hm1)
    have hm2 := h.mem_iff.mpr (lastValue_mem kw2 k w hw)
    rw [hw, hsame v w hm1 hm2]

theorem name_required_ne_loop_error (r : ruleimpl) (kwargs : List (Value × Value)) (d : Decl) :
    r.fnLoop kwargs d ≠ .error "name parameter is required" := by
  intro h
  rcases fnLoop_error_msg r kwargs d _ h with ⟨k, hk⟩ | hk | hk
  · exact unexpected_key_ne k "name parameter is required" (by decide) hk.symm
  · exact absurd hk (by decide)
  · exact absurd hk (by decide)

/-- Outside the contract of `rule`: when the value of `attrs` is not a dict, the
unchecked conversion at line 115 stops the call and no handler is produced. -/
theorem rule_attrs_not_dict_crashes :
    (Workspace.rule [] kwAttrsNotDict).isOk = false ∧
    (∃ c, Workspace.rule [] kwAttrsNotDict = .crash c) :=
  ⟨rfl, ⟨_, rfl⟩⟩

theorem rule_first_unknown_split (kwargs : List (Value × Value)) (hc : RuleContract kwargs)
    (hun : ∃ kv ∈ kwargs, kv.1 ≠ Value.str "attrs" ∧ kv.1 ≠ Value.str "type") :
    ∃ before k v after, kwargs = before ++ (Value.str k, v) :: after ∧
      RuleAccepted before ∧ k ≠ "attrs" ∧ k ≠ "type" := by
  induction kwargs with
  | nil =>
    obtain ⟨kv, hmem, _⟩ := hun
    simp at hmem
  | cons x rest ih =>
    obtain ⟨key, hkey, hattrs⟩ := hc x (List.mem_cons_self _ _)
    obtain ⟨k0, v0⟩ := x
    simp only at hkey hattrs
    subst hkey
    by_cases h1 : key = "attrs"
    · by_cases hrest : ∃ kv ∈ rest, kv.1 ≠ Value.str "attrs" ∧ kv.1 ≠ Value.str "type"
      · obtain ⟨before, k, v, after, hsplit, hacc, hk1, hk2⟩ :=
          ih (fun kv hkv => hc kv (List.mem_cons_of_mem _ hkv)) hrest
        refine ⟨(Value.str key, v0) :: before, k, v, after, by rw [hsplit]; rfl, ?_, hk1, hk2⟩
        intro kv hkv
        rcases List.mem_cons.mp hkv with heq | hmem
        · subst heq
          obtain ⟨items, hv, hkeys⟩ := hattrs h1
          exact Or.inr ⟨by rw [h1], items, hv, hkeys⟩
        · exact hacc kv hmem
      · exfalso
        obtain ⟨kv, hmem, hn1, hn2⟩ := hun
        rcases List.mem_cons.mp hmem with heq | hmem'
        · subst heq
          exact hn1 (by rw [h1])
        · exact hrest ⟨kv, hmem', hn1, hn2⟩
    · by_cases h2 : key = "type"
      · by_cases hrest : ∃ kv ∈ rest, kv.1 ≠ Value.str "attrs" ∧ kv.1 ≠ Value.str "type"
        · obtain ⟨before, k, v, after, hsplit, hacc, hk1, hk2⟩ :=
            ih (fun kv hkv => hc kv (List.mem_cons_of_mem _ hkv)) hrest
          refine ⟨(Value.str key, v0) :: before, k, v, after, by rw [hsplit]; rfl, ?_, hk1, hk2⟩
          intro kv hkv
          rcases List.mem_cons.mp hkv with heq | hmem
          · subst heq
            exact Or.inl (by rw [h2])
          · exact hacc kv hmem
        · exfalso
          obtain ⟨kv, hmem, hn1, hn2⟩ := hun
          rcases List.mem_cons.mp hmem with heq | hmem'
          · subst heq
            exact hn2 (by rw [h2])
          · exact hrest ⟨kv, hmem', hn1, hn2⟩
      · refine ⟨[], key, v0, rest, rfl, ?_, h1, h2⟩
        intro kv hkv
        simp at hkv

theorem ruleContract_accepted (kwargs : List (Value × Value)) (hc : RuleContract kwargs)
    (hkeys : ∀ kv ∈ kwargs, kv.1 = Value.str "attrs" ∨ kv.1 = Value.str "type") :
    RuleAccepted kwargs := by
  intro kv hkv
  obtain ⟨key, hkey, hattrs⟩ := hc kv hkv
  rcases hkeys kv hkv with h | h
  · rw [hkey] at h
    simp only [Value.str.injEq] at h
    obtain ⟨items, hv, hk⟩ := hattrs h
    exact Or.inr ⟨by rw [hkey, h], items, hv, hk⟩
  · exact Or.inl h

/-! ## The properties of the specification -/

/-- C1 (as stated, refuted): under the `module` rule the invocation
`module(name="a", srcs=["x"], **{"srcs": ["y"]})` succeeds and all its keywords
other than `name` have files kind; the declared file lists are `["x"]` and
`["y"]`, yet `GetFiles("MODS","a")` returns `["y"]`, which is not a
concatenation of the declared lists in any order. -/
theorem getFiles_repeated_keyword_counterexample :
    moduleRule.fn threadMODS kwRepeatedSrcs Workspace.fresh
      = (Workspace.fresh.RegisterModule "MODS" "a" [("srcs", ⟨["y"]⟩)] [], .ok Value.none) ∧
    (∀ kv ∈ kwRepeatedSrcs, kv.1 ≠ Value.str "name" →
      ∃ k, kv.1 = Value.str k ∧ mapLookup moduleRule.attrs k = some Value.files) ∧
    declaredLists kwRepeatedSrcs = [["x"], ["y"]] ∧
    (∀ ro : RangeOrder,
      (moduleRule.fn threadMODS kwRepeatedSrcs Workspace.fresh).1.GetFiles "MODS" "a" ro
        = (["y"], Option.none)) ∧
    ¬ ∃ (ro : RangeOrder) (order : List (List String)),
      order.Perm (declaredLists kwRepeatedSrcs) ∧
      (moduleRule.fn threadMODS kwRepeatedSrcs Workspace.fresh).1.GetFiles "MODS" "a" ro
        = (order.flatten, Option.none) := by
  have hget : ∀ ro : RangeOrder,
      (moduleRule.fn threadMODS kwRepeatedSrcs Workspace.fresh).1.GetFiles "MODS" "a" ro
        = (["y"], Option.none) := by
    intro ro
    have hlook : (moduleRule.fn threadMODS kwRepeatedSrcs Workspace.fresh).1.lookup ("MODS", "a")
        = some ⟨"MODS", "a", [("srcs", ⟨["y"]⟩)], []⟩ := rfl
    rw [getFiles_of_lookup _ _ _ _ ro hlook]
    simp [pick_singleton]
  refine ⟨rfl, ?_, rfl, hget, ?_⟩
  · intro kv hkv hne
    simp only [kwRepeatedSrcs, List.mem_cons, List.mem_singleton, List.not_mem_nil,
      or_false] at hkv
    rcases hkv with h | h | h
    · subst h; exact absurd rfl hne
    · subst h; exact ⟨"srcs", rfl, rfl⟩
    · subst h; exact ⟨"srcs", rfl, rfl⟩
  · rintro ⟨ro, order, hperm, heq⟩
    rw [hget ro] at heq
    have hd : declaredLists kwRepeatedSrcs = [["x"], ["y"]] := rfl
    rw [hd] at hperm
    have hx : ["x"] ∈ order := hperm.mem_iff.mpr (by simp)
    have hmem : "x" ∈ order.flatten := List.mem_flatten.mpr ⟨["x"], hx, by simp⟩
    simp only [Prod.mk.injEq, and_true] at heq
    rw [← heq] at hmem
    simp at hmem

/-- C1 (amended): after a successful handler invocation whose keywords other than
`name` all have files kind in the schema, `GetFiles` at the caller's file and the
declared name succeeds and returns the concatenation, over the supplied
attribute names in some order, of the string list supplied last under each name,
each list contiguous and in its input order; when no keyword is repeated this is
the concatenation of all declared lists in some order. In the scenario of
`declA` under the `module` rule, `GetFiles("MODS","a")` returns
`["a.go","b.go"]` whatever the map iteration order. -/
theorem getFiles_after_files_declaration :
    (∀ (r : ruleimpl) (thread : Thread) (kwargs : List (Value × Value))
        (ws ws' : Workspace) (out : Value) (ro : RangeOrder),
      r.fn thread kwargs ws = (ws', .ok out) →
      (∀ kv ∈ kwargs, kv.1 ≠ Value.str "name" →
        ∃ k, kv.1 = Value.str k ∧ mapLookup r.attrs k = some Value.files) →
      ∃ (caller : Frame) (outer : List Frame) (name : String)
          (order : List (String × List String)),
        thread.callers = caller :: outer ∧
        lastValue kwargs "name" = some (Value.str name) ∧
        ws'.GetFiles caller.filename name ro = ((order.map Prod.snd).flatten, Option.none) ∧
        (order.map Prod.fst).Nodup ∧
        (∀ k items, (k, items) ∈ order ↔
          (k ≠ "name" ∧ ∃ v, lastValue kwargs k = some v ∧ toStrings v = .ok items)) ∧
        ((kwargs.map Prod.fst).Nodup → (order.map Prod.snd).Perm (declaredLists kwargs))) ∧
    (∀ ro : RangeOrder,
      (moduleRule.fn declA.thread declA.kwargs Workspace.fresh).2 = .ok Value.none ∧
      (moduleRule.fn declA.thread declA.kwargs Workspace.fresh).1.GetFiles "MODS" "a" ro
        = (["a.go", "b.go"], Option.none)) := by
  constructor
  · intro r thread kwargs ws ws' out ro hok hfiles
    obtain ⟨d, caller, outer, hl, hn, hc, hws, _⟩ := fn_ok_inv r thread kwargs ws ws' out hok
    have hname : lastValue kwargs "name" = some (Value.str d.name) := by
      obtain ⟨h1, h2⟩ := fnLoop_ok_name r kwargs _ d hl
      cases hlv : lastValue kwargs "name" with
      | none => exact absurd (h1 hlv) hn
      | some w => rw [h2 w hlv]
    have hnd : (mapKeys d.filedeps).Nodup := fnLoop_ok_nodup r kwargs _ d hl (by simp [mapKeys])
    have hperm := ro.perm d.filedeps
    have hlook : ws'.lookup (caller.filename, d.name)
        = some ⟨caller.filename, d.name, d.filedeps, d.moduledeps⟩ := by
      rw [hws]; exact lookup_RegisterModule_same _ _ _ _ _
    refine ⟨caller, outer, d.name, (ro.pick d.filedeps).map (fun e => (e.1, e.2.items)),
      hc, hname, ?_, ?_, ?_, ?_⟩
    · rw [getFiles_of_lookup ws' _ _ _ ro hlook]
      simp [List.map_map, Function.comp_def]
    · have : ((ro.pick d.filedeps).map (fun e => (e.1, e.2.items))).map Prod.fst
          = mapKeys (ro.pick d.filedeps) := by
        simp [mapKeys, List.map_map, Function.comp_def]
      rw [this]
      exact ((hperm.map Prod.fst).nodup_iff).mpr hnd
    · intro k items
      have hmem : (k, items) ∈ (ro.pick d.filedeps).map (fun e => (e.1, e.2.items))
          ↔ mapLookup d.filedeps k = some ⟨items⟩ := by
        rw [← mem_iff_mapLookup d.filedeps k ⟨items⟩ hnd, ← hperm.mem_iff]
        simp only [List.mem_map, Prod.mk.injEq]
        constructor
        · rintro ⟨⟨k', fd⟩, he, h1, h2⟩
          simp only at h1 h2
          subst h1; subst h2
          exact he
        · intro he
          exact ⟨(k, ⟨items⟩), he, rfl, rfl⟩
      rw [hmem]
      obtain ⟨hsame, hlast⟩ := fnLoop_ok_lookup r kwargs _ d hl k
      constructor
      · intro hk
        by_cases hkn : k = "name"
        · rw [(hsame (Or.inr hkn)).1] at hk
          simp [mapLookup] at hk
        · cases hlv : lastValue kwargs k with
          | none =>
            rw [(hsame (Or.inl hlv)).1] at hk
            simp [mapLookup] at hk
          | some v =>
            obtain ⟨attr, items', ha, ht, hfd, _⟩ := hlast v hkn hlv
            obtain ⟨k1, hk1, hf⟩ := hfiles _ (lastValue_mem kwargs k v hlv) (by simpa using hkn)
            simp only [Value.str.injEq] at hk1
            subst hk1
            rw [ha] at hf
            have hattr : attr = Value.files := Option.some.inj hf
            subst hattr
            rw [hfd] at hk
            have h3 : mapLookup (recordAttr Value.files k items' ⟨"", [], []⟩).filedeps k
                = some ⟨items'⟩ := mapLookup_mapSet_same _ _ _
            rw [h3] at hk
            simp only [Option.some.injEq, filedep.mk.injEq] at hk
            subst hk
            exact ⟨hkn, v, rfl, ht⟩
      · rintro ⟨hkn, v, hlv, ht⟩
        obtain ⟨attr, items', ha, ht', hfd, _⟩ := hlast v hkn hlv
        obtain ⟨k1, hk1, hf⟩ := hfiles _ (lastValue_mem kwargs k v hlv) (by simpa using hkn)
        simp only [Value.str.injEq] at hk1
        subst hk1
        rw [ha] at hf
        have hattr : attr = Value.files := Option.some.inj hf
        subst hattr
        rw [ht] at ht'
        simp only [Except.ok.injEq] at ht'
        subst ht'
        rw [hfd]
        exact mapLookup_mapSet_same _ _ _
    · intro hkeys
      have hdecl := fnLoop_ok_declared r kwargs _ d hl hfiles hkeys
        (by intro kv _ k _; simp [mapKeys])
      simp only [List.map_nil, List.nil_append] at hdecl
      rw [← hdecl]
      have : ((ro.pick d.filedeps).map (fun e => (e.1, e.2.items))).map Prod.snd
          = (ro.pick d.filedeps).map (fun e => e.2.items) := by
        simp [List.map_map, Function.comp_def]
      rw [this]
      exact hperm.map _
  · intro ro
    refine ⟨rfl, ?_⟩
    have hlook : (moduleRule.fn declA.thread declA.kwargs Workspace.fresh).1.lookup ("MODS", "a")
        = some ⟨"MODS", "a", [("srcs", ⟨["a.go", "b.go"]⟩)], [("deps", ⟨[], []⟩)]⟩ := by
      rfl
    rw [getFiles_of_lookup _ _ _ _ ro hlook]
    simp [pick_singleton]

theorem getFiles_after_files_declaration_witness :
    (filesRule.fn declFiles.thread declFiles.kwargs Workspace.fresh
      = (Workspace.fresh.RegisterModule "MODS" "a"
          [("srcs", ⟨["a.go"]⟩), ("hdrs", ⟨["a.h", "b.h"]⟩)] [], .ok Value.none)) ∧
    (∀ kv ∈ declFiles.kwargs, kv.1 ≠ Value.str "name" →
      ∃ k, kv.1 = Value.str k ∧ mapLookup filesRule.attrs k = some Value.files) ∧
    ∃ (caller : Frame) (outer : List Frame) (name : String)
        (order : List (String × List String)),
      declFiles.thread.callers = caller :: outer ∧
      lastValue declFiles.kwargs "name" = some (Value.str name) ∧
      (Workspace.fresh.RegisterModule "MODS" "a"
          [("srcs", ⟨["a.go"]⟩), ("hdrs", ⟨["a.h", "b.h"]⟩)] []).GetFiles
            caller.filename name RangeOrder.reversed
        = ((order.map Prod.snd).flatten, Option.none) ∧
      (order.map Prod.fst).Nodup ∧
      (∀ k items, (k, items) ∈ order ↔
        (k ≠ "name" ∧ ∃ v, lastValue declFiles.kwargs k = some v ∧ toStrings v = .ok items)) ∧
      ((declFiles.kwargs.map Prod.fst).Nodup →
        (order.map Prod.snd).Perm (declaredLists declFiles.kwargs)) :=
  have hfiles : ∀ kv ∈ declFiles.kwargs, kv.1 ≠ Value.str "name" →
      ∃ k, kv.1 = Value.str k ∧ mapLookup filesRule.attrs k = some Value.files := by
    intro kv hkv hne
    simp only [declFiles, List.mem_cons, List.mem_singleton, List.not_mem_nil, or_false] at hkv
    rcases hkv with h | h | h
    · subst h; exact absurd rfl hne
    · subst h; exact ⟨"srcs", rfl, rfl⟩
    · subst h; exact ⟨"hdrs", rfl, by simp [filesRule, mapLookup]⟩
  ⟨rfl, hfiles, getFiles_after_files_declaration.1 filesRule declFiles.thread declFiles.kwargs
    Workspace.fresh _ Value.none RangeOrder.reversed rfl hfiles⟩

/-- C2: calling `RegisterModule` twice with the same identity leaves only the
second record: the registry is the one obtained by registering the second
record alone, the identity maps to the second record, and `GetFiles` returns
the items of the second record's file dependencies only (every returned path
comes from an entry of the second record). -/
theorem registerModule_twice_keeps_second (ws : Workspace) (fname name : String)
    (fd1 fd2 : List (String × filedep)) (md1 md2 : List (String × moduledep))
    (ro : RangeOrder) :
    (ws.RegisterModule fname name fd1 md1).RegisterModule fname name fd2 md2
      = ws.RegisterModule fname name fd2 md2 ∧
    ((ws.RegisterModule fname name fd1 md1).RegisterModule fname name fd2 md2).lookup
      (fname, name) = some ⟨fname, name, fd2, md2⟩ ∧
    ((ws.RegisterModule fname name fd1 md1).RegisterModule fname name fd2 md2).GetFiles
      fname name ro = (((ro.pick fd2).map (fun e => e.2.items)).flatten, Option.none) ∧
    (∀ p ∈ (((ws.RegisterModule fname name fd1 md1).RegisterModule fname name fd2 md2).GetFiles
      fname name ro).1, ∃ e ∈ fd2, p ∈ e.2.items) := by
  have hlook := lookup_RegisterModule_same (ws.RegisterModule fname name fd1 md1) fname name fd2 md2
  have hget := getFiles_of_lookup _ fname name _ ro hlook
  refine ⟨?_, hlook, hget, ?_⟩
  · simp [Workspace.RegisterModule, mapSet_mapSet_same]
  · intro p hp
    rw [hget] at hp
    simp only [List.mem_flatten, List.mem_map] at hp
    obtain ⟨l, ⟨e, he, hl⟩, hpl⟩ := hp
    subst hl
    exact ⟨e, ((ro.perm fd2).mem_iff).mp he, hpl⟩

/-- C3: `GetFiles` on an identity that is not in the registry returns the empty
list and the error "Unable to find module"; on an identity that is in the
registry it returns no error, so it fails only in that case. A fresh workspace
fails for every identity, and registrations of other identities never make an
absent identity found. -/
theorem getFiles_fails_iff_unregistered (ws : Workspace) (fname name : String)
    (ro : RangeOrder) :
    (ws.contains (fname, name) = false →
      ws.GetFiles fname name ro = ([], some "Unable to find module")) ∧
    (ws.contains (fname, name) = true → (ws.GetFiles fname name ro).2 = Option.none) ∧
    Workspace.fresh.GetFiles fname name ro = ([], some "Unable to find module") ∧
    (∀ regs : List (String × String × List (String × filedep) × List (String × moduledep)),
      ws.contains (fname, name) = false →
      (∀ reg ∈ regs, (reg.1, reg.2.1) ≠ (fname, name)) →
      (registerAll ws regs).GetFiles fname name ro = ([], some "Unable to find module")) := by
  refine ⟨?_, ?_, rfl, ?_⟩
  · intro h
    apply getFiles_of_lookup_none
    simpa [Workspace.contains] using h
  · intro h
    simp only [Workspace.contains, Option.isSome_iff_exists] at h
    obtain ⟨m, hm⟩ := h
    rw [getFiles_of_lookup ws fname name m ro hm]
  · intro regs h hregs
    apply getFiles_of_lookup_none
    rw [lookup_registerAll_other (fname, name) regs ws hregs]
    simpa [Workspace.contains] using h

theorem getFiles_fails_iff_unregistered_witness :
    Workspace.fresh.contains ("MODS", "a") = false ∧
    Workspace.fresh.GetFiles "MODS" "a" RangeOrder.stored = ([], some "Unable to find module") ∧
    (Workspace.fresh.RegisterModule "MODS" "a" [] []).contains ("MODS", "a") = true ∧
    ((Workspace.fresh.RegisterModule "MODS" "a" [] []).GetFiles "MODS" "a" RangeOrder.stored).2
      = Option.none ∧
    (registerAll Workspace.fresh [("MODS", "b", [("srcs", ⟨["b.go"]⟩)], [])]).GetFiles
      "MODS" "a" RangeOrder.stored = ([], some "Unable to find module") :=
  ⟨by decide,
   (getFiles_fails_iff_unregistered Workspace.fresh "MODS" "a" RangeOrder.stored).1 (by decide),
   by decide,
   (getFiles_fails_iff_unregistered (Workspace.fresh.RegisterModule "MODS" "a" [] [])
      "MODS" "a" RangeOrder.stored).2.1 (by decide),
   (getFiles_fails_iff_unregistered Workspace.fresh "MODS" "a" RangeOrder.stored).2.2.2
      [("MODS", "b", [("srcs", ⟨["b.go"]⟩)], [])] (by decide) (by decide)⟩

/-- C4 (as stated, refuted): under the `module` rule the keywords
`(name="a", srcs=1, bogus=[])` contain the keyword `bogus`, which is not in the
schema, yet the call fails with "Not a list", the error of the earlier keyword
`srcs`, and not with an "Unexpected key" error. -/
theorem unknown_key_error_counterexample :
    ((Value.str "bogus", Value.list []) ∈ kwBadValueThenUnknown ∧ "bogus" ≠ "name" ∧
      mapLookup moduleRule.attrs "bogus" = Option.none) ∧
    moduleRule.fn threadMODS kwBadValueThenUnknown Workspace.fresh
      = (Workspace.fresh, .error "Not a list") ∧
    ¬ ∃ k, (moduleRule.fn threadMODS kwBadValueThenUnknown Workspace.fresh).2
      = .error ("Unexpected key: " ++ k) := by
  refine ⟨⟨by simp [kwBadValueThenUnknown], by decide, rfl⟩, rfl, ?_⟩
  rintro ⟨k, hk⟩
  have h2 : (moduleRule.fn threadMODS kwBadValueThenUnknown Workspace.fresh).2
      = .error "Not a list" := rfl
  rw [h2] at hk
  simp only [Outcome.error.injEq] at hk
  exact unexpected_key_ne k "Not a list" (by decide) hk.symm

/-- C4 (amended): a handler call that supplies a keyword `k` other than `name`
that is not in the schema never succeeds and leaves the registry unchanged,
whatever the other keywords are; on well-typed keywords it returns an error; and
the error is "Unexpected key: k" when every keyword before `k` is acceptable
(`name` with a string, or a schema attribute with a list of strings). -/
theorem unknown_key_fails (r : ruleimpl) (thread : Thread) (ws : Workspace)
    (before after : List (Value × Value)) (k : String) (v : Value)
    (hk : k ≠ "name") (hun : mapLookup r.attrs k = Option.none) :
    (r.fn thread (before ++ (Value.str k, v) :: after) ws).1 = ws ∧
    (r.fn thread (before ++ (Value.str k, v) :: after) ws).2.isOk = false ∧
    (WellTyped (before ++ (Value.str k, v) :: after) →
      (r.fn thread (before ++ (Value.str k, v) :: after) ws).2.isError = true) ∧
    (Accepted r before →
      r.fn thread (before ++ (Value.str k, v) :: after) ws
        = (ws, .error ("Unexpected key: " ++ k))) := by
  have hnot : ∀ d, r.fnLoop (before ++ (Value.str k, v) :: after) ⟨"", [], []⟩ ≠ .ok d := by
    intro d hd
    obtain ⟨key, hkey, _, hattr⟩ := fnLoop_ok_accepted r _ _ d hd (Value.str k, v) (by simp)
    simp only [Value.str.injEq] at hkey
    subst hkey
    obtain ⟨⟨a, ha⟩, _⟩ := hattr hk
    rw [hun] at ha
    exact Option.noConfusion ha
  obtain ⟨h1, h2, h3⟩ := fn_of_loop_not_ok r thread _ ws hnot
  refine ⟨h1, h2, h3, ?_⟩
  intro hacc
  obtain ⟨d1, hd1⟩ := fnLoop_accepted_ok r before ⟨"", [], []⟩ hacc
  apply fn_of_loop_error
  rw [fnLoop_append r before _ _ d1 hd1]
  exact fnLoop_cons_unknown r k v after d1 hk hun

theorem unknown_key_fails_witness :
    ("bogus" ≠ "name" ∧ mapLookup moduleRule.attrs "bogus" = Option.none ∧
      Accepted moduleRule [(Value.str "name", Value.str "a")]) ∧
    moduleRule.fn threadMODS
        ([(Value.str "name", Value.str "a")] ++ (Value.str "bogus", Value.list [])
          :: [(Value.str "srcs", Value.int 1)]) Workspace.fresh
      = (Workspace.fresh, .error ("Unexpected key: " ++ "bogus")) :=
  have hacc : Accepted moduleRule [(Value.str "name", Value.str "a")] := by
    intro kv hkv
    simp only [List.mem_singleton] at hkv
    subst hkv
    exact ⟨"name", rfl, fun _ => ⟨"a", rfl⟩, fun h => absurd rfl h⟩
  ⟨⟨by decide, rfl, hacc⟩,
    (unknown_key_fails moduleRule threadMODS Workspace.fresh [(Value.str "name", Value.str "a")]
      [(Value.str "srcs", Value.int 1)] "bogus" (Value.list []) (by decide) rfl).2.2.2 hacc⟩

/-- C5 (as stated, refuted): under the `module` rule the keywords `(bogus=[])` omit
the name, yet the call fails with "Unexpected key: bogus" and not with
"name parameter is required". -/
theorem missing_name_error_counterexample :
    lastValue kwUnknownNoName "name" = Option.none ∧
    moduleRule.fn threadMODS kwUnknownNoName Workspace.fresh
      = (Workspace.fresh, .error "Unexpected key: bogus") ∧
    (moduleRule.fn threadMODS kwUnknownNoName Workspace.fresh).2
      ≠ .error "name parameter is required" := by
  refine ⟨rfl, rfl, ?_⟩
  have h2 : (moduleRule.fn threadMODS kwUnknownNoName Workspace.fresh).2
      = .error "Unexpected key: bogus" := rfl
  rw [h2]
  intro hc
  simp only [Outcome.error.injEq] at hc
  exact absurd hc (by decide)

/-- C5 (amended): a handler call in which the name is omitted or the name supplied
last is the empty string never succeeds and leaves the registry unchanged,
whatever the other keywords are; on well-typed keywords it returns an error; and
the error is "name parameter is required" when every keyword is acceptable
(`name` with a string, or a schema attribute with a list of strings). -/
theorem missing_name_fails (r : ruleimpl) (thread : Thread) (ws : Workspace)
    (kwargs : List (Value × Value))
    (hname : lastValue kwargs "name" = Option.none ∨
      lastValue kwargs "name" = some (Value.str "")) :
    (r.fn thread kwargs ws).1 = ws ∧
    (r.fn thread kwargs ws).2.isOk = false ∧
    (WellTyped kwargs → (r.fn thread kwargs ws).2.isError = true) ∧
    (Accepted r kwargs → r.fn thread kwargs ws = (ws, .error "name parameter is required")) := by
  have hnoname : ∀ d, r.fnLoop kwargs ⟨"", [], []⟩ = .ok d → d.name = "" := by
    intro d hd
    obtain ⟨h1, h2⟩ := fnLoop_ok_name r kwargs _ d hd
    rcases hname with hn | hn
    · exact h1 hn
    · have := h2 _ hn
      simp only [Value.str.injEq] at this
      exact this.symm
  have hacc : Accepted r kwargs →
      r.fn thread kwargs ws = (ws, .error "name parameter is required") := by
    intro ha
    obtain ⟨d, hd⟩ := fnLoop_accepted_ok r kwargs ⟨"", [], []⟩ ha
    exact fn_of_loop_ok_noname r thread kwargs ws d hd (hnoname d hd)
  cases hl : r.fnLoop kwargs ⟨"", [], []⟩ with
  | ok d =>
    have hfn := fn_of_loop_ok_noname r thread kwargs ws d hl (hnoname d hl)
    rw [hfn]
    exact ⟨rfl, rfl, fun _ => rfl, fun _ => rfl⟩
  | error e =>
    obtain ⟨h1, h2, h3⟩ := fn_of_loop_not_ok r thread kwargs ws (by rw [hl]; intro d hd; cases hd)
    exact ⟨h1, h2, h3, hacc⟩
  | crash c =>
    obtain ⟨h1, h2, h3⟩ := fn_of_loop_not_ok r thread kwargs ws (by rw [hl]; intro d hd; cases hd)
    exact ⟨h1, h2, h3, hacc⟩

theorem missing_name_fails_witness :
    (lastValue [(Value.str "name", Value.str ""), (Value.str "srcs", Value.list [Value.str "a.go"])]
        "name" = some (Value.str "")) ∧
    moduleRule.fn threadMODS
        [(Value.str "name", Value.str ""), (Value.str "srcs", Value.list [Value.str "a.go"])]
        Workspace.fresh
      = (Workspace.fresh, .error "name parameter is required") :=
  ⟨rfl,
    (missing_name_fails moduleRule threadMODS Workspace.fresh
      [(Value.str "name", Value.str ""), (Value.str "srcs", Value.list [Value.str "a.go"])]
      (Or.inr rfl)).2.2.2 (by
        intro kv hkv
        simp only [List.mem_cons, List.mem_singleton, List.not_mem_nil, or_false] at hkv
        rcases hkv with h | h
        · subst h; exact ⟨"name", rfl, fun _ => ⟨"", rfl⟩, fun h => absurd rfl h⟩
        · subst h
          exact ⟨"srcs", rfl, fun h => absurd h (by decide),
            fun _ => ⟨⟨Value.files, rfl⟩, ⟨["a.go"], rfl⟩⟩⟩)⟩

/-- C6 (as stated, refuted): evaluating the declaration `declA` followed by a
declaration without a name stops with the error "name parameter is required",
and the registry afterwards still holds the module ("MODS","a") that the first
declaration registered: it is not the registry the evaluation started from. -/
theorem failed_evaluation_keeps_earlier_counterexample :
    (evalFile moduleRule [declA, declNoName] Workspace.fresh).2
      = .error "name parameter is required" ∧
    (evalFile moduleRule [declA, declNoName] Workspace.fresh).1.contains ("MODS", "a") = true ∧
    (evalFile moduleRule [declA, declNoName] Workspace.fresh).1.GetFiles "MODS" "a"
      RangeOrder.stored = (["a.go", "b.go"], Option.none) ∧
    (evalFile moduleRule [declA, declNoName] Workspace.fresh).1 ≠ Workspace.fresh := by
  refine ⟨rfl, by decide, by decide, by decide⟩

/-- C6 (amended): when the evaluation of a file stops at a handler call that
returns an error, the registry afterwards is the registry left by the calls
that preceded the failing one, all of which succeeded (their modules stay:
nothing is rolled back); the failing call itself leaves that registry unchanged
and the calls after it are not made. `main` then stops with that error
(`log.Fatal`) and never queries the registry. -/
theorem failed_evaluation_keeps_earlier (r : ruleimpl) (calls : List Call) (ws : Workspace)
    (e : String) (h : (evalFile r calls ws).2 = .error e) :
    (∃ (done : List Call) (failing : Call) (rest : List Call),
      calls = done ++ failing :: rest ∧
      evalFile r done ws = ((evalFile r calls ws).1, .ok Value.none) ∧
      r.fn failing.thread failing.kwargs (evalFile r calls ws).1
        = ((evalFile r calls ws).1, .error e)) ∧
    (∀ (name : String) (ro : RangeOrder), mainFrom r name calls ws ro = .fatal e) := by
  refine ⟨evalFile_error_split r calls ws e h, ?_⟩
  intro name ro
  unfold mainFrom
  cases hev : evalFile r calls ws with
  | mk ws1 o =>
    rw [hev] at h
    simp only at h
    subst h
    rfl

theorem failed_evaluation_keeps_earlier_witness :
    (evalFile moduleRule [declA, declNoName, declB] Workspace.fresh).2
      = .error "name parameter is required" ∧
    (∃ (done : List Call) (failing : Call) (rest : List Call),
      [declA, declNoName, declB] = done ++ failing :: rest ∧
      evalFile moduleRule done Workspace.fresh
        = ((evalFile moduleRule [declA, declNoName, declB] Workspace.fresh).1, .ok Value.none) ∧
      moduleRule.fn failing.thread failing.kwargs
          (evalFile moduleRule [declA, declNoName, declB] Workspace.fresh).1
        = ((evalFile moduleRule [declA, declNoName, declB] Workspace.fresh).1,
            .error "name parameter is required")) ∧
    mainFrom moduleRule "a" [declA, declNoName, declB] Workspace.fresh RangeOrder.stored
      = .fatal "name parameter is required" :=
  ⟨rfl,
    (failed_evaluation_keeps_earlier moduleRule [declA, declNoName, declB] Workspace.fresh
      "name parameter is required" rfl).1,
    (failed_evaluation_keeps_earlier moduleRule [declA, declNoName, declB] Workspace.fresh
      "name parameter is required" rfl).2 "a" RangeOrder.stored⟩

/-- C7: `GetFiles` never follows module dependencies: its result is a function of
the queried module's own file-dependency map alone, so two registries in which
the identity has the same file dependencies give the same result, whatever the
module dependencies of that module and whatever other modules are registered.
After the declarations `declA` and `declB` in `MODS`, `GetFiles("MODS","b")`
returns the empty list. -/
theorem getFiles_ignores_module_dependencies :
    (∀ (ws ws' : Workspace) (fname name : String) (m m' : Module) (ro : RangeOrder),
      ws.lookup (fname, name) = some m → ws'.lookup (fname, name) = some m' →
      m.filedeps = m'.filedeps →
      ws.GetFiles fname name ro = ws'.GetFiles fname name ro ∧
      ws.GetFiles fname name ro
        = (((ro.pick m.filedeps).map (fun e => e.2.items)).flatten, Option.none)) ∧
    (∀ (ws ws' : Workspace) (fname name : String) (fd : List (String × filedep))
        (md md' : List (String × moduledep)) (ro : RangeOrder),
      (ws.RegisterModule fname name fd md).GetFiles fname name ro
        = (ws'.RegisterModule fname name fd md').GetFiles fname name ro) ∧
    (∀ ro : RangeOrder,
      (evalFile moduleRule [declA, declB] Workspace.fresh).2 = .ok Value.none ∧
      (evalFile moduleRule [declA, declB] Workspace.fresh).1.GetFiles "MODS" "b" ro
        = ([], Option.none) ∧
      (evalFile moduleRule [declA, declB] Workspace.fresh).1.GetFiles "MODS" "a" ro
        = (["a.go", "b.go"], Option.none)) := by
  refine ⟨?_, ?_, ?_⟩
  · intro ws ws' fname name m m' ro h h' hfd
    rw [getFiles_of_lookup ws fname name m ro h, getFiles_of_lookup ws' fname name m' ro h', hfd]
    exact ⟨rfl, rfl⟩
  · intro ws ws' fname name fd md md' ro
    rw [getFiles_of_lookup _ fname name _ ro (lookup_RegisterModule_same ws fname name fd md),
      getFiles_of_lookup _ fname name _ ro (lookup_RegisterModule_same ws' fname name fd md')]
  · intro ro
    have hb : (evalFile moduleRule [declA, declB] Workspace.fresh).1.lookup ("MODS", "b")
        = some ⟨"MODS", "b", [("srcs", ⟨[]⟩)], [("deps", ⟨[], ["a"]⟩)]⟩ := by rfl
    have ha : (evalFile moduleRule [declA, declB] Workspace.fresh).1.lookup ("MODS", "a")
        = some ⟨"MODS", "a", [("srcs", ⟨["a.go", "b.go"]⟩)], [("deps", ⟨[], []⟩)]⟩ := by rfl
    refine ⟨rfl, ?_, ?_⟩
    · rw [getFiles_of_lookup _ _ _ _ ro hb]
      simp [pick_singleton]
    · rw [getFiles_of_lookup _ _ _ _ ro ha]
      simp [pick_singleton]

theorem getFiles_ignores_module_dependencies_witness :
    (Workspace.fresh.RegisterModule "MODS" "b" [("srcs", ⟨["b.go"]⟩)] [("deps", ⟨[], ["a"]⟩)]).GetFiles
        "MODS" "b" RangeOrder.stored
      = ((Workspace.fresh.RegisterModule "MODS" "a" [("srcs", ⟨["a.go"]⟩)] []).RegisterModule
          "MODS" "b" [("srcs", ⟨["b.go"]⟩)] []).GetFiles "MODS" "b" RangeOrder.stored ∧
    (Workspace.fresh.RegisterModule "MODS" "b" [("srcs", ⟨["b.go"]⟩)] [("deps", ⟨[], ["a"]⟩)]).GetFiles
        "MODS" "b" RangeOrder.stored = (["b.go"], Option.none) :=
  have h := getFiles_ignores_module_dependencies.1
    (Workspace.fresh.RegisterModule "MODS" "b" [("srcs", ⟨["b.go"]⟩)] [("deps", ⟨[], ["a"]⟩)])
    ((Workspace.fresh.RegisterModule "MODS" "a" [("srcs", ⟨["a.go"]⟩)] []).RegisterModule
      "MODS" "b" [("srcs", ⟨["b.go"]⟩)] [])
    "MODS" "b" ⟨"MODS", "b", [("srcs", ⟨["b.go"]⟩)], [("deps", ⟨[], ["a"]⟩)]⟩
    ⟨"MODS", "b", [("srcs", ⟨["b.go"]⟩)], []⟩ RangeOrder.stored (by decide) (by decide) rfl
  ⟨h.1, by decide⟩

/-- C8 (as stated, refuted): under a rule whose `deps` has modules kind the
invocation `module(name="b", deps=["a"], **{"deps": ["c"]})` succeeds and
supplies the keyword `deps` with the list `["a"]`, yet the registered record
holds `["c"]` under `deps`, not the supplied `["a"]`. -/
theorem record_repeated_keyword_counterexample :
    typedRule.fn threadMODS kwRepeatedDeps Workspace.fresh
      = (Workspace.fresh.RegisterModule "MODS" "b" []
          [("deps", ⟨["lib", "bin"], ["c"]⟩)], .ok Value.none) ∧
    (Value.str "deps", Value.list [Value.str "a"]) ∈ kwRepeatedDeps ∧
    mapLookup typedRule.attrs "deps" = some (Value.modules ["lib", "bin"]) ∧
    toStrings (Value.list [Value.str "a"]) = .ok ["a"] ∧
    (∃ m, (typedRule.fn threadMODS kwRepeatedDeps Workspace.fresh).1.lookup ("MODS", "b")
        = some m ∧
      mapLookup m.moduledeps "deps" = some ⟨["lib", "bin"], ["c"]⟩ ∧
      mapLookup m.moduledeps "deps" ≠ some ⟨["lib", "bin"], ["a"]⟩) := by
  refine ⟨rfl, by simp [kwRepeatedDeps], rfl, rfl,
    ⟨⟨"MODS", "b", [], [("deps", ⟨["lib", "bin"], ["c"]⟩)]⟩, rfl, by decide, by decide⟩⟩

/-- C8 (amended): after a successful handler invocation the registered record
partitions the supplied keywords other than `name` by schema kind. For a
supplied keyword `k` and the value `v` supplied last for it (the value supplied,
when `k` is not repeated): if its kind is files, the file map has `k` with the
strings of `v` in order and the module map has no `k`; if its kind is modules
with types `ts`, the module map has `k` with those strings and with types `ts`,
and the file map has no `k`. Every key of the file map is a supplied keyword of
files kind and every key of the module map a supplied keyword of modules kind,
and neither map repeats a key. With `attr.modules(types=["lib","bin"])` the
recorded types are `["lib","bin"]`. -/
theorem registered_record_partitions_keywords :
    (∀ (r : ruleimpl) (thread : Thread) (kwargs : List (Value × Value))
        (ws ws' : Workspace) (out : Value),
      r.fn thread kwargs ws = (ws', .ok out) →
      ∃ (caller : Frame) (outer : List Frame) (name : String) (m : Module),
        thread.callers = caller :: outer ∧
        lastValue kwargs "name" = some (Value.str name) ∧
        ws'.lookup (caller.filename, name) = some m ∧
        (∀ k v, (Value.str k, v) ∈ kwargs →
          ∃ w, lastValue kwargs k = some w ∧ ((kwargs.map Prod.fst).Nodup → w = v)) ∧
        (∀ k v, k ≠ "name" → lastValue kwargs k = some v →
          ∃ items, toStrings v = .ok items ∧
            (mapLookup r.attrs k = some Value.files →
              mapLookup m.filedeps k = some ⟨items⟩ ∧
              mapLookup m.moduledeps k = Option.none) ∧
            (∀ ts, mapLookup r.attrs k = some (Value.modules ts) →
              mapLookup m.moduledeps k = some ⟨ts, items⟩ ∧
              mapLookup m.filedeps k = Option.none)) ∧
        (∀ k, k ∈ mapKeys m.filedeps →
          k ≠ "name" ∧ (∃ v, lastValue kwargs k = some v) ∧
            mapLookup r.attrs k = some Value.files) ∧
        (∀ k, k ∈ mapKeys m.moduledeps →
          k ≠ "name" ∧ (∃ v, lastValue kwargs k = some v) ∧
            ∃ ts, mapLookup r.attrs k = some (Value.modules ts)) ∧
        (mapKeys m.filedeps).Nodup ∧ (mapKeys m.moduledeps).Nodup) ∧
    (attrModules [] [(Value.str "types", Value.list [Value.str "lib", Value.str "bin"])]
        = .ok (Value.modules ["lib", "bin"]) ∧
      (typedRule.fn declB.thread declB.kwargs Workspace.fresh).2 = .ok Value.none ∧
      (typedRule.fn declB.thread declB.kwargs Workspace.fresh).1.lookup ("MODS", "b")
        = some ⟨"MODS", "b", [("srcs", ⟨[]⟩)], [("deps", ⟨["lib", "bin"], ["a"]⟩)]⟩ ∧
      ∀ ro : RangeOrder,
        (typedRule.fn declB.thread declB.kwargs Workspace.fresh).1.GetFiles "MODS" "b" ro
          = ([], Option.none)) := by
  constructor
  · intro r thread kwargs ws ws' out hok
    obtain ⟨d, caller, outer, hl, hn, hc, hws, _⟩ := fn_ok_inv r thread kwargs ws ws' out hok
    have hname : lastValue kwargs "name" = some (Value.str d.name) := by
      obtain ⟨h1, h2⟩ := fnLoop_ok_name r kwargs _ d hl
      cases hlv : lastValue kwargs "name" with
      | none => exact absurd (h1 hlv) hn
      | some w => rw [h2 w hlv]
    have hlook : ws'.lookup (caller.filename, d.name)
        = some ⟨caller.filename, d.name, d.filedeps, d.moduledeps⟩ := by
      rw [hws]; exact lookup_RegisterModule_same _ _ _ _ _
    obtain ⟨hp1, hp2, hp3⟩ := fnLoop_ok_partition r kwargs d hl
    refine ⟨caller, outer, d.name, _, hc, hname, hlook, ?_, hp1, hp2, hp3,
      fnLoop_ok_nodup r kwargs _ d hl (by simp [mapKeys]),
      fnLoop_ok_md_nodup r kwargs _ d hl (by simp [mapKeys])⟩
    intro k v hmem
    obtain ⟨w, hw⟩ := lastValue_isSome_of_mem kwargs k v hmem
    refine ⟨w, hw, ?_⟩
    intro hnd
    have := lastValue_of_mem_nodup kwargs k v hnd hmem
    rw [hw] at this
    exact Option.some.inj this
  · refine ⟨rfl, rfl, rfl, ?_⟩
    intro ro
    have hb : (typedRule.fn declB.thread declB.kwargs Workspace.fresh).1.lookup ("MODS", "b")
        = some ⟨"MODS", "b", [("srcs", ⟨[]⟩)], [("deps", ⟨["lib", "bin"], ["a"]⟩)]⟩ := rfl
    rw [getFiles_of_lookup _ _ _ _ ro hb]
    simp [pick_singleton]

theorem registered_record_partitions_keywords_witness :
    (typedRule.fn declB.thread declB.kwargs Workspace.fresh
      = (Workspace.fresh.RegisterModule "MODS" "b" [("srcs", ⟨[]⟩)]
          [("deps", ⟨["lib", "bin"], ["a"]⟩)], .ok Value.none)) ∧
    ∃ (caller : Frame) (outer : List Frame) (name : String) (m : Module),
      declB.thread.callers = caller :: outer ∧
      lastValue declB.kwargs "name" = some (Value.str name) ∧
      (Workspace.fresh.RegisterModule "MODS" "b" [("srcs", ⟨[]⟩)]
          [("deps", ⟨["lib", "bin"], ["a"]⟩)]).lookup (caller.filename, name) = some m ∧
      (∀ k v, (Value.str k, v) ∈ declB.kwargs →
        ∃ w, lastValue declB.kwargs k = some w ∧ ((declB.kwargs.map Prod.fst).Nodup → w = v)) ∧
      (∀ k v, k ≠ "name" → lastValue declB.kwargs k = some v →
        ∃ items, toStrings v = .ok items ∧
          (mapLookup typedRule.attrs k = some Value.files →
            mapLookup m.filedeps k = some ⟨items⟩ ∧
            mapLookup m.moduledeps k = Option.none) ∧
          (∀ ts, mapLookup typedRule.attrs k = some (Value.modules ts) →
            mapLookup m.moduledeps k = some ⟨ts, items⟩ ∧
            mapLookup m.filedeps k = Option.none)) ∧
      (∀ k, k ∈ mapKeys m.filedeps →
        k ≠ "name" ∧ (∃ v, lastValue declB.kwargs k = some v) ∧
          mapLookup typedRule.attrs k = some Value.files) ∧
      (∀ k, k ∈ mapKeys m.moduledeps →
        k ≠ "name" ∧ (∃ v, lastValue declB.kwargs k = some v) ∧
          ∃ ts, mapLookup typedRule.attrs k = some (Value.modules ts)) ∧
      (mapKeys m.filedeps).Nodup ∧ (mapKeys m.moduledeps).Nodup :=
  ⟨rfl, registered_record_partitions_keywords.1 typedRule declB.thread declB.kwargs
    Workspace.fresh _ Value.none rfl⟩

/-- C9: a successful handler invocation registers the module under the file name of
the immediate caller frame: the registry afterwards is the one before with the
record stored at (caller's file, declared name), no identity with another file
changes, and replacing the outer frames of the call chain by any others gives
the same result. A declaration made through the bootstrap helper `empty`, called
from `MODS`, is registered under the helper's file `""` and not under `MODS`. -/
theorem declaring_file_is_immediate_caller :
    (∀ (r : ruleimpl) (caller : Frame) (outer : List Frame) (kwargs : List (Value × Value))
        (ws ws' : Workspace) (out : Value),
      r.fn ⟨caller :: outer⟩ kwargs ws = (ws', .ok out) →
      (∃ (name : String) (fd : List (String × filedep)) (md : List (String × moduledep)),
        lastValue kwargs "name" = some (Value.str name) ∧
        ws' = ws.RegisterModule caller.filename name fd md ∧
        ws'.lookup (caller.filename, name) = some ⟨caller.filename, name, fd, md⟩ ∧
        (∀ f n, f ≠ caller.filename → ws'.lookup (f, n) = ws.lookup (f, n))) ∧
      (∀ outer' : List Frame, r.fn ⟨caller :: outer'⟩ kwargs ws = (ws', .ok out))) ∧
    ((moduleRule.fn threadHelper kwEmpty Workspace.fresh).2 = .ok Value.none ∧
      (moduleRule.fn threadHelper kwEmpty Workspace.fresh).1.contains ("", "x") = true ∧
      (moduleRule.fn threadHelper kwEmpty Workspace.fresh).1.contains ("MODS", "x") = false ∧
      (moduleRule.fn threadHelper kwEmpty Workspace.fresh).1.lookup ("", "x")
        = some ⟨"", "x", [("srcs", ⟨[]⟩)], [("deps", ⟨[], []⟩)]⟩) := by
  constructor
  · intro r caller outer kwargs ws ws' out hok
    obtain ⟨d, caller', outer', hl, hn, hc, hws, hout⟩ :=
      fn_ok_inv r ⟨caller :: outer⟩ kwargs ws ws' out hok
    simp only [List.cons.injEq] at hc
    obtain ⟨hc1, _⟩ := hc
    subst hc1
    have hname : lastValue kwargs "name" = some (Value.str d.name) := by
      obtain ⟨h1, h2⟩ := fnLoop_ok_name r kwargs _ d hl
      cases hlv : lastValue kwargs "name" with
      | none => exact absurd (h1 hlv) hn
      | some w => rw [h2 w hlv]
    constructor
    · refine ⟨d.name, d.filedeps, d.moduledeps, hname, hws, ?_, ?_⟩
      · rw [hws]; exact lookup_RegisterModule_same _ _ _ _ _
      · intro f n hf
        rw [hws]
        apply lookup_RegisterModule_other
        intro hcontra
        simp only [Prod.mk.injEq] at hcontra
        exact hf hcontra.1
    · intro outer2
      subst hws
      subst hout
      simp [ruleimpl.fn, hl, hn]
  · exact ⟨rfl, by decide, by decide, rfl⟩

theorem declaring_file_is_immediate_caller_witness :
    (moduleRule.fn ⟨(⟨""⟩ : Frame) :: [⟨"MODS"⟩]⟩ kwEmpty Workspace.fresh
      = (Workspace.fresh.RegisterModule "" "x" [("srcs", ⟨[]⟩)] [("deps", ⟨[], []⟩)],
          .ok Value.none)) ∧
    (moduleRule.fn ⟨(⟨""⟩ : Frame) :: [⟨"lib.star"⟩, ⟨"BUILD"⟩]⟩ kwEmpty Workspace.fresh
      = (Workspace.fresh.RegisterModule "" "x" [("srcs", ⟨[]⟩)] [("deps", ⟨[], []⟩)],
          .ok Value.none)) :=
  ⟨rfl, (declaring_file_is_immediate_caller.1 moduleRule ⟨""⟩ [⟨"MODS"⟩] kwEmpty
    Workspace.fresh _ Value.none rfl).2 [⟨"lib.star"⟩, ⟨"BUILD"⟩]⟩

/-- C10: `RegisterModule` is a total upsert keyed by (file, name): afterwards the
given identity is present and maps to the given record; every other identity
(differing in the file, the name, or both) maps to what it mapped to before, so
its presence and its `GetFiles` result are unchanged; and every identity present
before is present afterwards. -/
theorem registerModule_upsert (ws : Workspace) (fname name : String)
    (fd : List (String × filedep)) (md : List (String × moduledep)) :
    (ws.RegisterModule fname name fd md).contains (fname, name) = true ∧
    (ws.RegisterModule fname name fd md).lookup (fname, name) = some ⟨fname, name, fd, md⟩ ∧
    (∀ f n, (f ≠ fname ∨ n ≠ name) →
      (ws.RegisterModule fname name fd md).lookup (f, n) = ws.lookup (f, n) ∧
      (ws.RegisterModule fname name fd md).contains (f, n) = ws.contains (f, n) ∧
      ∀ ro : RangeOrder,
        (ws.RegisterModule fname name fd md).GetFiles f n ro = ws.GetFiles f n ro) ∧
    (∀ key, ws.contains key = true → (ws.RegisterModule fname name fd md).contains key = true) := by
  have hsame := lookup_RegisterModule_same ws fname name fd md
  have hother : ∀ f n, (f ≠ fname ∨ n ≠ name) →
      (ws.RegisterModule fname name fd md).lookup (f, n) = ws.lookup (f, n) := by
    intro f n hne
    apply lookup_RegisterModule_other
    intro hc
    simp only [Prod.mk.injEq] at hc
    rcases hne with h | h
    · exact h hc.1
    · exact h hc.2
  refine ⟨by simp [Workspace.contains, hsame], hsame, ?_, ?_⟩
  · intro f n hne
    refine ⟨hother f n hne, by simp [Workspace.contains, hother f n hne], ?_⟩
    intro ro
    exact getFiles_congr _ _ f n ro (hother f n hne)
  · intro key hkey
    obtain ⟨f, n⟩ := key
    by_cases hk : f = fname ∧ n = name
    · obtain ⟨h1, h2⟩ := hk
      subst h1; subst h2
      simp [Workspace.contains, hsame]
    · have hne : f ≠ fname ∨ n ≠ name := by
        by_cases h1 : f = fname
        · right; exact fun h2 => hk ⟨h1, h2⟩
        · left; exact h1
      simp only [Workspace.contains, hother f n hne]
      exact hkey

theorem registerModule_upsert_witness :
    ("lib.star" ≠ "MODS" ∨ "a" ≠ "a") ∧
    ((Workspace.fresh.RegisterModule "lib.star" "a" [("srcs", ⟨["x.go"]⟩)] []).RegisterModule
        "MODS" "a" [("srcs", ⟨["a.go"]⟩)] []).GetFiles "lib.star" "a" RangeOrder.stored
      = (Workspace.fresh.RegisterModule "lib.star" "a" [("srcs", ⟨["x.go"]⟩)] []).GetFiles
          "lib.star" "a" RangeOrder.stored ∧
    ((Workspace.fresh.RegisterModule "lib.star" "a" [("srcs", ⟨["x.go"]⟩)] []).RegisterModule
        "MODS" "a" [("srcs", ⟨["a.go"]⟩)] []).contains ("lib.star", "a") = true :=
  have h := registerModule_upsert
    (Workspace.fresh.RegisterModule "lib.star" "a" [("srcs", ⟨["x.go"]⟩)] [])
    "MODS" "a" [("srcs", ⟨["a.go"]⟩)] []
  ⟨Or.inl (by decide), ((h.2.2.1 "lib.star" "a" (Or.inl (by decide))).2.2 RangeOrder.stored),
    h.2.2.2 ("lib.star", "a") (by decide)⟩

/-- C11: a handler invocation that does not return normally (an error, or a
crash) leaves the registry as it was; one that succeeds leaves the registry of a
single `RegisterModule` call at (caller's file, declared name): that identity is
present afterwards and every other identity maps to what it mapped to before.
And an invocation under a caller frame with acceptable keywords and a name that
is not empty does succeed and does write: its result is that single
`RegisterModule` call, after which the identity maps to the declared record. -/
theorem fn_writes_once_or_not_at_all (r : ruleimpl) (thread : Thread)
    (kwargs : List (Value × Value)) (ws : Workspace) :
    (∀ e, (r.fn thread kwargs ws).2 = .error e → (r.fn thread kwargs ws).1 = ws) ∧
    (∀ c, (r.fn thread kwargs ws).2 = .crash c → (r.fn thread kwargs ws).1 = ws) ∧
    (∀ ws' out, r.fn thread kwargs ws = (ws', .ok out) →
      ∃ (caller : Frame) (outer : List Frame) (name : String)
          (fd : List (String × filedep)) (md : List (String × moduledep)),
        thread.callers = caller :: outer ∧
        lastValue kwargs "name" = some (Value.str name) ∧
        ws' = ws.RegisterModule caller.filename name fd md ∧
        ws'.contains (caller.filename, name) = true ∧
        (∀ key, key ≠ (caller.filename, name) → ws'.lookup key = ws.lookup key ∧
          ws'.contains key = ws.contains key)) ∧
    (∀ (caller : Frame) (outer : List Frame) (n : String),
      thread.callers = caller :: outer → Accepted r kwargs →
      lastValue kwargs "name" = some (Value.str n) → n ≠ "" →
      ∃ (fd : List (String × filedep)) (md : List (String × moduledep)),
        r.fn thread kwargs ws = (ws.RegisterModule caller.filename n fd md, .ok Value.none) ∧
        (r.fn thread kwargs ws).1.lookup (caller.filename, n)
          = some ⟨caller.filename, n, fd, md⟩ ∧
        (r.fn thread kwargs ws).1.contains (caller.filename, n) = true) := by
  refine ⟨?_, ?_, ?_, ?_⟩
  · intro e he
    exact fn_not_ok_ws r thread kwargs ws (by rw [he]; rfl)
  · intro c hc
    exact fn_not_ok_ws r thread kwargs ws (by rw [hc]; rfl)
  · intro ws' out hok
    obtain ⟨d, caller, outer, hl, hn, hc, hws, _⟩ := fn_ok_inv r thread kwargs ws ws' out hok
    have hname : lastValue kwargs "name" = some (Value.str d.name) := by
      obtain ⟨h1, h2⟩ := fnLoop_ok_name r kwargs _ d hl
      cases hlv : lastValue kwargs "name" with
      | none => exact absurd (h1 hlv) hn
      | some w => rw [h2 w hlv]
    refine ⟨caller, outer, d.name, d.filedeps, d.moduledeps, hc, hname, hws, ?_, ?_⟩
    · rw [hws]
      simp [Workspace.contains, lookup_RegisterModule_same]
    · intro key hkey
      have := lookup_RegisterModule_other ws caller.filename d.name d.filedeps d.moduledeps key hkey
      rw [hws]
      exact ⟨this, by simp [Workspace.contains, this]⟩
  · intro caller outer n hc hacc hlast hn
    obtain ⟨callers⟩ := thread
    simp only at hc
    subst hc
    obtain ⟨d, hd⟩ := fnLoop_accepted_ok r kwargs ⟨"", [], []⟩ hacc
    have hdn : d.name = n := by
      have := (fnLoop_ok_name r kwargs _ d hd).2 _ hlast
      simp only [Value.str.injEq] at this
      exact this.symm
    have hfn := fn_of_loop_ok r caller outer kwargs ws d hd (by rw [hdn]; exact hn)
    rw [hdn] at hfn
    refine ⟨d.filedeps, d.moduledeps, hfn, ?_, ?_⟩
    · rw [hfn]
      exact lookup_RegisterModule_same _ _ _ _ _
    · rw [hfn]
      simp [Workspace.contains, lookup_RegisterModule_same]

theorem fn_writes_once_or_not_at_all_witness :
    ((moduleRule.fn threadMODS kwUnknownNoName
        (Workspace.fresh.RegisterModule "MODS" "z" [] [])).2 = .error "Unexpected key: bogus" ∧
      (moduleRule.fn threadMODS kwUnknownNoName
        (Workspace.fresh.RegisterModule "MODS" "z" [] [])).1
        = Workspace.fresh.RegisterModule "MODS" "z" [] []) ∧
    (Accepted moduleRule declA.kwargs ∧
      (Workspace.fresh.RegisterModule "MODS" "z" [] []).contains ("MODS", "a") = false ∧
      (∃ (fd : List (String × filedep)) (md : List (String × moduledep)),
        moduleRule.fn declA.thread declA.kwargs (Workspace.fresh.RegisterModule "MODS" "z" [] [])
          = ((Workspace.fresh.RegisterModule "MODS" "z" [] []).RegisterModule "MODS" "a" fd md,
              .ok Value.none) ∧
        (moduleRule.fn declA.thread declA.kwargs
            (Workspace.fresh.RegisterModule "MODS" "z" [] [])).1.lookup ("MODS", "a")
          = some ⟨"MODS", "a", fd, md⟩ ∧
        (moduleRule.fn declA.thread declA.kwargs
            (Workspace.fresh.RegisterModule "MODS" "z" [] [])).1.contains ("MODS", "a") = true) ∧
      (moduleRule.fn declA.thread declA.kwargs
          (Workspace.fresh.RegisterModule "MODS" "z" [] [])).1
        = (Workspace.fresh.RegisterModule "MODS" "z" [] []).RegisterModule "MODS" "a"
            [("srcs", ⟨["a.go", "b.go"]⟩)] [("deps", ⟨[], []⟩)] ∧
      (moduleRule.fn declA.thread declA.kwargs
          (Workspace.fresh.RegisterModule "MODS" "z" [] [])).1
        ≠ Workspace.fresh.RegisterModule "MODS" "z" [] []) :=
  have hacc : Accepted moduleRule declA.kwargs := by
    intro kv hkv
    simp only [declA, List.mem_cons, List.mem_singleton, List.not_mem_nil, or_false] at hkv
    rcases hkv with h | h | h
    · subst h; exact ⟨"name", rfl, fun _ => ⟨"a", rfl⟩, fun h => absurd rfl h⟩
    · subst h
      exact ⟨"srcs", rfl, fun h => absurd h (by decide),
        fun _ => ⟨⟨Value.files, rfl⟩, ⟨["a.go", "b.go"], rfl⟩⟩⟩
    · subst h
      exact ⟨"deps", rfl, fun h => absurd h (by decide),
        fun _ => ⟨⟨Value.modules [], by simp [moduleRule, mapLookup]⟩, ⟨[], rfl⟩⟩⟩
  ⟨⟨rfl, (fn_writes_once_or_not_at_all moduleRule threadMODS kwUnknownNoName
      (Workspace.fresh.RegisterModule "MODS" "z" [] [])).1 "Unexpected key: bogus" rfl⟩,
    hacc, by decide,
    (fn_writes_once_or_not_at_all moduleRule declA.thread declA.kwargs
      (Workspace.fresh.RegisterModule "MODS" "z" [] [])).2.2.2 ⟨"MODS"⟩ [] "a" rfl hacc rfl
      (by decide),
    rfl, by decide⟩

/-- C12 (what the code does): `attrFiles` never inspects its arguments; every call,
with or without positional or keyword arguments, returns the files descriptor
and no error, so `attr.files(1, x=2)` succeeds and the declared error
`ErrArgsNotSupported` is never returned. -/
theorem attrFiles_ignores_arguments :
    attrFiles [Value.int 1] [(Value.str "x", Value.int 2)] = .ok Value.files ∧
    attrFiles [Value.int 1] [] = .ok Value.files ∧
    attrFiles [] [(Value.str "x", Value.int 2)] = .ok Value.files ∧
    (∀ (args : List Value) (kwargs : List (Value × Value)),
      attrFiles args kwargs = .ok Value.files ∧
      attrFiles args kwargs ≠ .error ErrArgsNotSupported) := by
  refine ⟨rfl, rfl, rfl, ?_⟩
  intro args kwargs
  refine ⟨rfl, ?_⟩
  intro h
  simp [attrFiles] at h

/-- C13 (as stated, refuted): the call `attr.modules(types=[1], x=2)` supplies the
keyword `x`, which is not `types`, yet it fails with "Expected string", the
error of the earlier keyword, and not with an "Unexpected key" error. -/
theorem attrModules_error_counterexample :
    attrModules [] [(Value.str "types", Value.list [Value.int 1]), (Value.str "x", Value.int 2)]
      = .error "Expected string" ∧
    ¬ ∃ k, attrModules []
        [(Value.str "types", Value.list [Value.int 1]), (Value.str "x", Value.int 2)]
      = .error ("Unexpected key: " ++ k) := by
  refine ⟨rfl, ?_⟩
  rintro ⟨k, hk⟩
  have h2 : attrModules []
      [(Value.str "types", Value.list [Value.int 1]), (Value.str "x", Value.int 2)]
      = .error "Expected string" := rfl
  rw [h2] at hk
  simp only [Outcome.error.injEq] at hk
  exact unexpected_key_ne k "Expected string" (by decide) hk.symm

/-- C13 (amended): `attr.modules` with no keyword produces the modules descriptor
with no types; with `types` a list of strings it produces the descriptor with
those strings in order (with several `types` keywords, the strings of all of
them in order); it succeeds only when every keyword is `types` with a list of
strings; and the error is that of the first offending keyword: "Unexpected key:
k" for a key other than `types`, "Expected list" for a `types` value that is
not a list, "Expected string" for a `types` list with an element that is not a
string. Positional arguments are not inspected. -/
theorem attrModules_first_offending_keyword (args : List Value) :
    attrModules args [] = .ok (Value.modules []) ∧
    (∀ ts : List String,
      attrModules args [(Value.str "types", Value.list (ts.map Value.str))]
        = .ok (Value.modules ts)) ∧
    (∀ kwargs, TypesAccepted kwargs →
      attrModules args kwargs = .ok (Value.modules (typesItems kwargs))) ∧
    (∀ kwargs out, attrModules args kwargs = .ok out → TypesAccepted kwargs) ∧
    (∀ before after k v, TypesAccepted before → k ≠ "types" →
      attrModules args (before ++ (Value.str k, v) :: after)
        = .error ("Unexpected key: " ++ k)) ∧
    (∀ before after v, TypesAccepted before → (∀ elems, v ≠ Value.list elems) →
      attrModules args (before ++ (Value.str "types", v) :: after) = .error "Expected list") ∧
    (∀ before after elems, TypesAccepted before → (∃ x ∈ elems, ∀ s, x ≠ Value.str s) →
      attrModules args (before ++ (Value.str "types", Value.list elems) :: after)
        = .error "Expected string") := by
  refine ⟨rfl, ?_, ?_, ?_, ?_, ?_, ?_⟩
  · intro ts
    simp [attrModules, attrModulesLoop, attrModulesElems_map_str]
  · intro kwargs h
    simp [attrModules, attrModulesLoop_accepted kwargs [] h]
  · intro kwargs out h
    cases hl : attrModulesLoop kwargs [] with
    | ok types => exact attrModulesLoop_ok_accepted kwargs [] types hl
    | error e => simp [attrModules, hl] at h
    | crash c => simp [attrModules, hl] at h
  · intro before after k v hb hk
    apply attrModules_of_loop_error
    rw [attrModulesLoop_append before _ [] hb]
    exact attrModulesLoop_cons_other k v after _ hk
  · intro before after v hb hv
    apply attrModules_of_loop_error
    rw [attrModulesLoop_append before _ [] hb]
    exact attrModulesLoop_cons_not_list v after _ hv
  · intro before after elems hb hx
    apply attrModules_of_loop_error
    rw [attrModulesLoop_append before _ [] hb]
    exact attrModulesLoop_cons_not_string elems after _ hx

theorem attrModules_first_offending_keyword_witness :
    TypesAccepted [(Value.str "types", Value.list [Value.str "lib"])] ∧
    attrModules [] ([(Value.str "types", Value.list [Value.str "lib"])]
        ++ (Value.str "x", Value.int 2) :: [(Value.str "types", Value.list [Value.int 1])])
      = .error ("Unexpected key: " ++ "x") ∧
    attrModules [] ([(Value.str "types", Value.list [Value.str "lib"])]
        ++ (Value.str "types", Value.list [Value.str "bin", Value.int 1])
          :: [(Value.str "x", Value.int 2)])
      = .error "Expected string" :=
  have hacc : TypesAccepted [(Value.str "types", Value.list [Value.str "lib"])] := by
    intro kv hkv
    simp only [List.mem_singleton] at hkv
    subst hkv
    exact ⟨rfl, ["lib"], rfl⟩
  ⟨hacc,
    (attrModules_first_offending_keyword []).2.2.2.2.1 _
      [(Value.str "types", Value.list [Value.int 1])] "x" (Value.int 2) hacc (by decide),
    (attrModules_first_offending_keyword []).2.2.2.2.2.2 _ [(Value.str "x", Value.int 2)]
      [Value.str "bin", Value.int 1] hacc
      ⟨Value.int 1, by simp, fun s h => by cases h⟩⟩

/-- C14: `toStrings` succeeds exactly on a list value all of whose elements are
strings, and then returns those strings, in the same order and number; on a
value that is not a list (a tuple of strings included) it fails with
"Not a list", on a list with an element that is not a string with
"Not a string list". When the handler converts the value of a schema keyword
and the conversion fails, the handler fails with that error and the registry is
unchanged. -/
theorem toStrings_converts_string_lists :
    (∀ (v : Value) (out : List String),
      toStrings v = .ok out ↔ v = Value.list (out.map Value.str)) ∧
    (∀ ss : List String, toStrings (Value.list (ss.map Value.str)) = .ok ss ∧
      ∀ out, toStrings (Value.list (ss.map Value.str)) = .ok out → out.length = ss.length) ∧
    (∀ v : Value, (∀ elems, v ≠ Value.list elems) → toStrings v = .error "Not a list") ∧
    (∀ ss : List String, toStrings (Value.tuple (ss.map Value.str)) = .error "Not a list") ∧
    (∀ (elems : List Value), (∃ x ∈ elems, ∀ s, x ≠ Value.str s) →
      toStrings (Value.list elems) = .error "Not a string list") ∧
    (∀ (r : ruleimpl) (k : String) (v attr : Value) (e : String)
        (rest : List (Value × Value)) (d : Decl),
      k ≠ "name" → mapLookup r.attrs k = some attr → toStrings v = .error e →
      r.fnLoop ((Value.str k, v) :: rest) d = .error e) ∧
    (∀ (r : ruleimpl) (thread : Thread) (ws : Workspace)
        (before after : List (Value × Value)) (k : String) (v attr : Value) (e : String),
      Accepted r before → k ≠ "name" → mapLookup r.attrs k = some attr →
      toStrings v = .error e →
      r.fn thread (before ++ (Value.str k, v) :: after) ws = (ws, .error e)) := by
  refine ⟨toStrings_ok_iff, ?_, ?_, ?_, ?_, ?_, ?_⟩
  · intro ss
    refine ⟨toStrings_list_str ss, ?_⟩
    intro out h
    rw [toStrings_list_str] at h
    simp only [Except.ok.injEq] at h
    rw [h]
  · intro v hv
    cases v with
    | list elems => exact absurd rfl (hv elems)
    | _ => rfl
  · intro ss
    rfl
  · intro elems hx
    cases h : toStrings (Value.list elems) with
    | error e =>
      simp only [toStrings] at h
      rw [toStringsLoop_error_msg elems [] e h]
    | ok out =>
      exfalso
      obtain ⟨x, hmem, hne⟩ := hx
      have := (toStrings_ok_iff _ _).mp h
      simp only [Value.list.injEq] at this
      rw [this] at hmem
      simp only [List.mem_map] at hmem
      obtain ⟨s, _, hs⟩ := hmem
      exact hne s hs.symm
  · intro r k v attr e rest d hk ha ht
    simp [ruleimpl.fnLoop, hk, ha, ht]
  · intro r thread ws before after k v attr e hacc hk ha ht
    obtain ⟨d1, hd1⟩ := fnLoop_accepted_ok r before ⟨"", [], []⟩ hacc
    apply fn_of_loop_error
    rw [fnLoop_append r before _ _ d1 hd1]
    simp [ruleimpl.fnLoop, hk, ha, ht]

theorem toStrings_converts_string_lists_witness :
    (toStrings (Value.list [Value.str "a.go", Value.str "b.go"]) = .ok ["a.go", "b.go"]) ∧
    (toStrings (Value.list [Value.str "a.go", Value.int 1]) = .error "Not a string list") ∧
    (moduleRule.fn threadMODS
        ([(Value.str "name", Value.str "a")] ++ (Value.str "srcs", Value.int 1)
          :: [(Value.str "bogus", Value.list [])]) Workspace.fresh
      = (Workspace.fresh, .error "Not a list")) :=
  ⟨(toStrings_converts_string_lists.1 _ ["a.go", "b.go"]).mpr rfl,
    toStrings_converts_string_lists.2.2.2.2.1 [Value.str "a.go", Value.int 1]
      ⟨Value.int 1, by simp, fun s h => by cases h⟩,
    toStrings_converts_string_lists.2.2.2.2.2.2 moduleRule threadMODS Workspace.fresh
      [(Value.str "name", Value.str "a")] [(Value.str "bogus", Value.list [])] "srcs"
      (Value.int 1) Value.files "Not a list"
      (by
        intro kv hkv
        simp only [List.mem_singleton] at hkv
        subst hkv
        exact ⟨"name", rfl, fun _ => ⟨"a", rfl⟩, fun h => absurd rfl h⟩)
      (by decide) rfl rfl⟩

/-- C15: for calls of `rule` within its contract (string keys, every `attrs` value a
mapping from strings): a call that supplies a keyword other than `attrs` or
`type` fails with the "Unexpected key" error and produces no handler; a call
that supplies only `attrs` and/or `type` succeeds, the schema of its handler
maps each attribute name to the value the `attrs` mapping gives it (the later
entry if a name is given twice) and holds no other name; with no `attrs` keyword
the schema is empty. In detail: a keyword other than `attrs` or `type` never
lets any call produce a handler, and the error names the first such keyword
`k` ("Unexpected key: k") when every keyword before it is `type` or is `attrs`
with a dict whose keys are strings. -/
theorem rule_builds_schema (args : List Value) :
    (∀ kwargs, (∃ kv ∈ kwargs, kv.1 ≠ Value.str "attrs" ∧ kv.1 ≠ Value.str "type") →
      (Workspace.rule args kwargs).isOk = false) ∧
    (∀ before after k v, RuleAccepted before → k ≠ "attrs" → k ≠ "type" →
      Workspace.rule args (before ++ (Value.str k, v) :: after)
        = .error ("Unexpected key: " ++ k)) ∧
    (∀ kwargs, RuleAccepted kwargs →
      ∃ r, Workspace.rule args kwargs = .ok r ∧
        (∀ a, mapLookup r.attrs a = lastValue (attrsItems kwargs) a) ∧
        (mapKeys r.attrs).Nodup) ∧
    (∀ kwargs, (∀ kv ∈ kwargs, kv.1 = Value.str "type") →
      ∃ r, Workspace.rule args kwargs = .ok r ∧ r.attrs = []) ∧
    (∀ items, (∀ e ∈ items, ∃ a, e.1 = Value.str a) →
      ∃ r, Workspace.rule args [(Value.str "attrs", Value.dict items)] = .ok r ∧
        ∀ a, mapLookup r.attrs a = lastValue items a) ∧
    (∀ kwargs, RuleContract kwargs →
      (∃ kv ∈ kwargs, kv.1 ≠ Value.str "attrs" ∧ kv.1 ≠ Value.str "type") →
      (Workspace.rule args kwargs).isOk = false ∧
      ∃ k, Workspace.rule args kwargs = .error ("Unexpected key: " ++ k)) ∧
    (∀ kwargs, RuleContract kwargs →
      (∀ kv ∈ kwargs, kv.1 = Value.str "attrs" ∨ kv.1 = Value.str "type") →
      ∃ r, Workspace.rule args kwargs = .ok r ∧
        (∀ a, mapLookup r.attrs a = lastValue (attrsItems kwargs) a) ∧
        (mapKeys r.attrs).Nodup) := by
  have hgen : ∀ kwargs, RuleAccepted kwargs →
      ∃ r, Workspace.rule args kwargs = .ok r ∧
        (∀ a, mapLookup r.attrs a = lastValue (attrsItems kwargs) a) ∧
        (mapKeys r.attrs).Nodup := by
    intro kwargs hacc
    obtain ⟨r, hr⟩ := ruleLoop_accepted_ok kwargs ⟨[], []⟩ hacc
    obtain ⟨h1, h2⟩ := ruleLoop_ok_attrs kwargs _ r hr
    refine ⟨r, hr, ?_, h2 (by simp [mapKeys])⟩
    intro a
    rw [h1 a]
    cases lastValue (attrsItems kwargs) a <;> rfl
  have hfirst : ∀ before after k v, RuleAccepted before → k ≠ "attrs" → k ≠ "type" →
      Workspace.rule args (before ++ (Value.str k, v) :: after)
        = .error ("Unexpected key: " ++ k) := by
    intro before after k v hacc h1 h2
    obtain ⟨r1, hr1⟩ := ruleLoop_accepted_ok before ⟨[], []⟩ hacc
    unfold Workspace.rule
    rw [ruleLoop_append before _ _ r1 hr1]
    exact ruleLoop_cons_unknown k v after r1 h1 h2
  refine ⟨?_, hfirst, hgen, ?_, ?_, ?_, ?_⟩
  rotate_left 3
  · intro kwargs hc hun
    obtain ⟨before, k, v, after, hsplit, hacc, h1, h2⟩ := rule_first_unknown_split kwargs hc hun
    have herr := hfirst before after k v hacc h1 h2
    rw [← hsplit] at herr
    exact ⟨by rw [herr]; rfl, k, herr⟩
  · intro kwargs hc hkeys
    exact hgen kwargs (ruleContract_accepted kwargs hc hkeys)
  · intro kwargs ⟨kv, hmem, h1, h2⟩
    cases hr : Workspace.rule args kwargs with
    | ok r =>
      exfalso
      rcases ruleLoop_ok_keys kwargs _ r hr kv hmem with hc | hc
      · exact h1 hc
      · exact h2 hc
    | error e => rfl
    | crash c => rfl
  · intro kwargs h
    exact ruleLoop_types_only kwargs ⟨[], []⟩ h
  · intro items hkeys
    have hacc : RuleAccepted [(Value.str "attrs", Value.dict items)] := by
      intro kv hkv
      simp only [List.mem_singleton] at hkv
      subst hkv
      exact Or.inr ⟨rfl, items, rfl, hkeys⟩
    obtain ⟨r, hr, h1, _⟩ := hgen _ hacc
    refine ⟨r, hr, ?_⟩
    intro a
    rw [h1 a]
    simp [attrsItems]

theorem rule_builds_schema_witness :
    RuleAccepted [(Value.str "attrs", Value.dict [(Value.str "srcs", Value.files)])] ∧
    Workspace.rule []
        ([(Value.str "attrs", Value.dict [(Value.str "srcs", Value.files)])]
          ++ (Value.str "kind", Value.str "lib") :: [(Value.str "type", Value.list [])])
      = .error ("Unexpected key: " ++ "kind") ∧
    (∃ r, Workspace.rule [] [(Value.str "attrs", Value.dict [(Value.str "srcs", Value.files)])]
        = .ok r ∧
      ∀ a, mapLookup r.attrs a = lastValue [(Value.str "srcs", Value.files)] a) ∧
    RuleContract [(Value.str "attrs", Value.dict [(Value.str "srcs", Value.files)]),
      (Value.str "kind", Value.str "lib")] ∧
    (∃ k, Workspace.rule [] [(Value.str "attrs", Value.dict [(Value.str "srcs", Value.files)]),
      (Value.str "kind", Value.str "lib")] = .error ("Unexpected key: " ++ k)) :=
  have hkeys : ∀ e ∈ [(Value.str "srcs", Value.files)], ∃ a, e.1 = Value.str a := by
    intro e he
    simp only [List.mem_singleton] at he
    subst he
    exact ⟨"srcs", rfl⟩
  have hacc : RuleAccepted [(Value.str "attrs", Value.dict [(Value.str "srcs", Value.files)])] := by
    intro kv hkv
    simp only [List.mem_singleton] at hkv
    subst hkv
    exact Or.inr ⟨rfl, _, rfl, hkeys⟩
  have hcontract : RuleContract
      [(Value.str "attrs", Value.dict [(Value.str "srcs", Value.files)]),
        (Value.str "kind", Value.str "lib")] := by
    intro kv hkv
    simp only [List.mem_cons, List.mem_singleton, List.not_mem_nil, or_false] at hkv
    rcases hkv with h | h
    · subst h; exact ⟨"attrs", rfl, fun _ => ⟨_, rfl, hkeys⟩⟩
    · subst h; exact ⟨"kind", rfl, fun h => absurd h (by decide)⟩
  ⟨hacc,
    (rule_builds_schema []).2.1 _ [(Value.str "type", Value.list [])] "kind" (Value.str "lib")
      hacc (by decide) (by decide),
    (rule_builds_schema []).2.2.2.2.1 _ hkeys,
    hcontract,
    ((rule_builds_schema []).2.2.2.2.2.1 _ hcontract
      ⟨(Value.str "kind", Value.str "lib"), by simp, by simp, by simp⟩).2⟩

/-- C16: `rule(type=ts)` with `ts` a list of strings stores exactly `ts` as the
types of the rule (for any call that succeeds, the types stored are the strings
of the `type` value supplied last); and the types are never read: two rules
with the same schema behave alike, so two calls of `rule` that differ only in
the values of `type` give handlers that return the same result and leave the
same registry on every invocation. -/
theorem rule_type_is_stored_and_unused :
    (∀ (args : List Value) (ts : List String),
      Workspace.rule args [(Value.str "type", Value.list (ts.map Value.str))] = .ok ⟨[], ts⟩) ∧
    (∀ (args : List Value) (kwargs : List (Value × Value)) (r : ruleimpl) (ts : List String),
      Workspace.rule args kwargs = .ok r →
      lastValue kwargs "type" = some (Value.list (ts.map Value.str)) → r.types = ts) ∧
    (∀ (r1 r2 : ruleimpl), r1.attrs = r2.attrs →
      ∀ (thread : Thread) (kwargs : List (Value × Value)) (ws : Workspace),
        r1.fn thread kwargs ws = r2.fn thread kwargs ws) ∧
    (∀ (args1 args2 : List Value) (kw1 kw2 : List (Value × Value)) (r1 : ruleimpl),
      SameButType kw1 kw2 → Workspace.rule args1 kw1 = .ok r1 →
      ∃ r2, Workspace.rule args2 kw2 = .ok r2 ∧ r2.attrs = r1.attrs ∧
        ∀ (thread : Thread) (kwargs : List (Value × Value)) (ws : Workspace),
          r1.fn thread kwargs ws = r2.fn thread kwargs ws) := by
  refine ⟨?_, ?_, fn_attrs_congr, ?_⟩
  · intro args ts
    simp [Workspace.rule, ruleLoop, toStrings_list_str]
  · intro args kwargs r ts hr hl
    have := ruleLoop_ok_types kwargs _ r hr
    rw [hl] at this
    simp only [typesOf, toStrings_list_str] at this
    exact this
  · intro args1 args2 kw1 kw2 r1 hsame hr1
    obtain ⟨r2, hr2, hattrs⟩ := ruleLoop_sameButType kw1 kw2 hsame ⟨[], []⟩ ⟨[], []⟩ r1 rfl hr1
    exact ⟨r2, hr2, hattrs, fn_attrs_congr r1 r2 hattrs.symm⟩

theorem rule_type_is_stored_and_unused_witness :
    (⟨[("srcs", Value.files)], ["lib"]⟩ : ruleimpl).attrs
      = (⟨[("srcs", Value.files)], ["bin", "test"]⟩ : ruleimpl).attrs ∧
    (⟨[("srcs", Value.files)], ["lib"]⟩ : ruleimpl).fn declFiles.thread
        [(Value.str "name", Value.str "a"), (Value.str "srcs", Value.list [Value.str "a.go"])]
        Workspace.fresh
      = (⟨[("srcs", Value.files)], ["bin", "test"]⟩ : ruleimpl).fn declFiles.thread
        [(Value.str "name", Value.str "a"), (Value.str "srcs", Value.list [Value.str "a.go"])]
        Workspace.fresh :=
  ⟨rfl, rule_type_is_stored_and_unused.2.2.1 _ _ rfl _ _ _⟩

/-- C17: when the schema binds an attribute name to a value that is neither the
files descriptor nor a modules descriptor, an invocation under a caller frame
that supplies that keyword with a list of strings, a name that is not empty, and
otherwise acceptable keywords succeeds, and the registered record has no entry
for that keyword in the file map nor in the module map. -/
theorem unrecognized_kind_is_dropped (r : ruleimpl) (caller : Frame) (outer : List Frame)
    (kwargs : List (Value × Value)) (ws : Workspace) (k : String) (attr : Value)
    (hattr : mapLookup r.attrs k = some attr) (hnf : attr ≠ Value.files)
    (hnm : ∀ ts, attr ≠ Value.modules ts)
    (hsup : ∃ items : List String, (Value.str k, Value.list (items.map Value.str)) ∈ kwargs)
    (hacc : Accepted r kwargs)
    (hname : ∃ n, lastValue kwargs "name" = some (Value.str n) ∧ n ≠ "") :
    ∃ (ws' : Workspace) (name : String) (m : Module),
      r.fn ⟨caller :: outer⟩ kwargs ws = (ws', .ok Value.none) ∧
      lastValue kwargs "name" = some (Value.str name) ∧
      (∃ w, lastValue kwargs k = some w) ∧
      ws'.lookup (caller.filename, name) = some m ∧
      mapLookup m.filedeps k = Option.none ∧ mapLookup m.moduledeps k = Option.none ∧
      k ∉ mapKeys m.filedeps ∧ k ∉ mapKeys m.moduledeps := by
  obtain ⟨items, hmem⟩ := hsup
  obtain ⟨n, hlast, hn⟩ := hname
  obtain ⟨d, hd⟩ := fnLoop_accepted_ok r kwargs ⟨"", [], []⟩ hacc
  have hdn : d.name = n := by
    have := (fnLoop_ok_name r kwargs _ d hd).2 _ hlast
    simp only [Value.str.injEq] at this
    exact this.symm
  obtain ⟨_, hp2, hp3⟩ := fnLoop_ok_partition r kwargs d hd
  have hfd : k ∉ mapKeys d.filedeps := by
    intro hc
    obtain ⟨_, _, hf⟩ := hp2 k hc
    rw [hattr] at hf
    exact hnf (Option.some.inj hf)
  have hmd : k ∉ mapKeys d.moduledeps := by
    intro hc
    obtain ⟨_, _, ts, hm⟩ := hp3 k hc
    rw [hattr] at hm
    exact hnm ts (Option.some.inj hm)
  refine ⟨_, d.name, ⟨caller.filename, d.name, d.filedeps, d.moduledeps⟩,
    fn_of_loop_ok r caller outer kwargs ws d hd (by rw [hdn]; exact hn), by rw [hdn]; exact hlast,
    lastValue_isSome_of_mem kwargs k _ hmem, lookup_RegisterModule_same _ _ _ _ _, (mapLookup_none_iff _ _).mpr hfd,
    (mapLookup_none_iff _ _).mpr hmd, hfd, hmd⟩

theorem unrecognized_kind_is_dropped_witness :
    (mapLookup oddRule.attrs "opts" = some (Value.int 1)) ∧
    ∃ (ws' : Workspace) (name : String) (m : Module),
      oddRule.fn ⟨(⟨"MODS"⟩ : Frame) :: []⟩ kwOdd Workspace.fresh = (ws', .ok Value.none) ∧
      lastValue kwOdd "name" = some (Value.str name) ∧
      (∃ w, lastValue kwOdd "opts" = some w) ∧
      ws'.lookup ("MODS", name) = some m ∧
      mapLookup m.filedeps "opts" = Option.none ∧ mapLookup m.moduledeps "opts" = Option.none ∧
      "opts" ∉ mapKeys m.filedeps ∧ "opts" ∉ mapKeys m.moduledeps :=
  ⟨rfl, unrecognized_kind_is_dropped oddRule ⟨"MODS"⟩ [] kwOdd Workspace.fresh "opts"
    (Value.int 1) rfl (fun h => by cases h) (fun ts h => by cases h)
    ⟨["x"], by simp [kwOdd]⟩
    (by
      intro kv hkv
      simp only [kwOdd, List.mem_cons, List.mem_singleton, List.not_mem_nil, or_false] at hkv
      rcases hkv with h | h | h
      · subst h; exact ⟨"name", rfl, fun _ => ⟨"a", rfl⟩, fun h => absurd rfl h⟩
      · subst h
        exact ⟨"srcs", rfl, fun h => absurd h (by decide),
          fun _ => ⟨⟨Value.files, rfl⟩, ⟨["a.go"], rfl⟩⟩⟩
      · subst h
        exact ⟨"opts", rfl, fun h => absurd h (by decide),
          fun _ => ⟨⟨Value.int 1, rfl⟩, ⟨["x"], rfl⟩⟩⟩)
    ⟨"a", rfl, by decide⟩⟩

/-- C18 (as stated, refuted): the keywords `(name="a", name="")` and
`(name="", name="a")` are the same keywords in two orders, with string keys and
string names; under the `module` rule the first invocation fails with
"name parameter is required" and the second succeeds, so whether the invocation
succeeds depends on the order. -/
theorem success_depends_on_order_counterexample :
    kwNameThenEmpty.Perm kwEmptyThenName ∧
    WellTyped kwNameThenEmpty ∧ WellTyped kwEmptyThenName ∧
    moduleRule.fn threadMODS kwNameThenEmpty Workspace.fresh
      = (Workspace.fresh, .error "name parameter is required") ∧
    moduleRule.fn threadMODS kwEmptyThenName Workspace.fresh
      = (Workspace.fresh.RegisterModule "MODS" "a" [] [], .ok Value.none) ∧
    (moduleRule.fn threadMODS kwNameThenEmpty Workspace.fresh).2.isOk
      ≠ (moduleRule.fn threadMODS kwEmptyThenName Workspace.fresh).2.isOk := by
  refine ⟨List.Perm.swap _ _ _, ?_, ?_, rfl, rfl, by decide⟩
  · intro kv hkv
    simp only [kwNameThenEmpty, List.mem_cons, List.mem_singleton, List.not_mem_nil,
      or_false] at hkv
    rcases hkv with h | h
    · subst h; exact ⟨"name", rfl, fun _ => ⟨"a", rfl⟩⟩
    · subst h; exact ⟨"name", rfl, fun _ => ⟨"", rfl⟩⟩
  · intro kv hkv
    simp only [kwEmptyThenName, List.mem_cons, List.mem_singleton, List.not_mem_nil,
      or_false] at hkv
    rcases hkv with h | h
    · subst h; exact ⟨"name", rfl, fun _ => ⟨"", rfl⟩⟩
    · subst h; exact ⟨"name", rfl, fun _ => ⟨"a", rfl⟩⟩

/-- C18 (amended): an invocation under a caller frame whose keys are strings and
whose name values are strings succeeds exactly when every keyword other than
`name` is in the schema, the value of every such keyword is a list of strings,
and the name supplied last is a string that is not empty. Hence success is the
same for two orders of the same keywords whenever the name supplied last is the
same, in particular when all values supplied for `name` agree (as when it is
supplied once). The error reported is that of the first offending keyword, and
"name parameter is required" is reported only when no keyword offends. -/
theorem fn_succeeds_iff (r : ruleimpl) (caller : Frame) (outer : List Frame)
    (kwargs : List (Value × Value)) (ws : Workspace) (htyped : WellTyped kwargs) :
    ((r.fn ⟨caller :: outer⟩ kwargs ws).2.isOk = true ↔
      ((∀ kv ∈ kwargs, ∀ key, kv.1 = Value.str key → key ≠ "name" →
          ∃ a, mapLookup r.attrs key = some a) ∧
       (∀ kv ∈ kwargs, ∀ key, kv.1 = Value.str key → key ≠ "name" →
          ∃ items : List String, kv.2 = Value.list (items.map Value.str)) ∧
       (∃ n, lastValue kwargs "name" = some (Value.str n) ∧ n ≠ ""))) ∧
    (∀ kwargs', kwargs.Perm kwargs' →
      lastValue kwargs "name" = lastValue kwargs' "name" →
      (r.fn ⟨caller :: outer⟩ kwargs' ws).2.isOk = (r.fn ⟨caller :: outer⟩ kwargs ws).2.isOk) ∧
    (∀ kwargs', kwargs.Perm kwargs' →
      (∀ v w, (Value.str "name", v) ∈ kwargs → (Value.str "name", w) ∈ kwargs → v = w) →
      (r.fn ⟨caller :: outer⟩ kwargs' ws).2.isOk = (r.fn ⟨caller :: outer⟩ kwargs ws).2.isOk) ∧
    (∀ before k v after, kwargs = before ++ (Value.str k, v) :: after → Accepted r before →
      k ≠ "name" → mapLookup r.attrs k = Option.none →
      r.fn ⟨caller :: outer⟩ kwargs ws = (ws, .error ("Unexpected key: " ++ k))) ∧
    (∀ before k v after a e, kwargs = before ++ (Value.str k, v) :: after → Accepted r before →
      k ≠ "name" → mapLookup r.attrs k = some a → toStrings v = .error e →
      r.fn ⟨caller :: outer⟩ kwargs ws = (ws, .error e)) ∧
    (r.fn ⟨caller :: outer⟩ kwargs ws = (ws, .error "name parameter is required") ↔
      (Accepted r kwargs ∧ (lastValue kwargs "name" = Option.none ∨
        lastValue kwargs "name" = some (Value.str "")))) := by
  have hiff := fn_ok_iff r caller outer kwargs ws
  have hperm : ∀ kwargs', kwargs.Perm kwargs' →
      lastValue kwargs "name" = lastValue kwargs' "name" →
      (r.fn ⟨caller :: outer⟩ kwargs' ws).2.isOk
        = (r.fn ⟨caller :: outer⟩ kwargs ws).2.isOk := by
    intro kwargs' hp hlast
    have h1 := fn_ok_iff r caller outer kwargs ws
    have h2 := fn_ok_iff r caller outer kwargs' ws
    rw [← hlast] at h2
    have hacc : Accepted r kwargs ↔ Accepted r kwargs' :=
      ⟨accepted_perm r _ _ hp, accepted_perm r _ _ hp.symm⟩
    rw [← hacc] at h2
    cases hb : (r.fn ⟨caller :: outer⟩ kwargs ws).2.isOk with
    | true => exact h2.mpr (h1.mp hb)
    | false =>
      cases hb' : (r.fn ⟨caller :: outer⟩ kwargs' ws).2.isOk with
      | false => rfl
      | true =>
        have := h1.mpr (h2.mp hb')
        rw [hb] at this
        cases this
  refine ⟨?_, hperm, ?_, ?_, ?_, ?_⟩
  · rw [hiff]
    constructor
    · rintro ⟨hacc, hname⟩
      refine ⟨?_, ?_, hname⟩
      · intro kv hkv key hkey hne
        obtain ⟨key', hkey', _, hattr⟩ := hacc kv hkv
        rw [hkey] at hkey'
        simp only [Value.str.injEq] at hkey'
        subst hkey'
        exact (hattr hne).1
      · intro kv hkv key hkey hne
        obtain ⟨key', hkey', _, hattr⟩ := hacc kv hkv
        rw [hkey] at hkey'
        simp only [Value.str.injEq] at hkey'
        subst hkey'
        obtain ⟨items, hitems⟩ := (hattr hne).2
        exact ⟨items, (toStrings_ok_iff _ _).mp hitems⟩
    · rintro ⟨h1, h2, hname⟩
      refine ⟨?_, hname⟩
      intro kv hkv
      obtain ⟨key, hkey, hs⟩ := htyped kv hkv
      refine ⟨key, hkey, hs, ?_⟩
      intro hne
      obtain ⟨items, hitems⟩ := h2 kv hkv key hkey hne
      exact ⟨h1 kv hkv key hkey hne, items, (toStrings_ok_iff _ _).mpr hitems⟩
  · intro kwargs' hp hsame
    exact hperm kwargs' hp (lastValue_agree_of_perm kwargs kwargs' "name" hp hsame)
  · intro before k v after hsplit hacc hk hun
    rw [hsplit]
    obtain ⟨d1, hd1⟩ := fnLoop_accepted_ok r before ⟨"", [], []⟩ hacc
    apply fn_of_loop_error
    rw [fnLoop_append r before _ _ d1 hd1]
    exact fnLoop_cons_unknown r k v after d1 hk hun
  · intro before k v after a e hsplit hacc hk ha ht
    rw [hsplit]
    obtain ⟨d1, hd1⟩ := fnLoop_accepted_ok r before ⟨"", [], []⟩ hacc
    apply fn_of_loop_error
    rw [fnLoop_append r before _ _ d1 hd1]
    simp [ruleimpl.fnLoop, hk, ha, ht]
  · constructor
    · intro h
      cases hl : r.fnLoop kwargs ⟨"", [], []⟩ with
      | error e =>
        rw [fn_of_loop_error r _ kwargs ws e hl] at h
        simp only [Prod.mk.injEq, Outcome.error.injEq, true_and] at h
        subst h
        exact absurd hl (name_required_ne_loop_error r kwargs _)
      | crash c =>
        rw [fn_of_loop_crash r _ kwargs ws c hl] at h
        simp at h
      | ok d =>
        refine ⟨fnLoop_ok_accepted r kwargs _ d hl, ?_⟩
        by_cases hn : d.name = ""
        · obtain ⟨h1, h2⟩ := fnLoop_ok_name r kwargs _ d hl
          cases hlv : lastValue kwargs "name" with
          | none => exact Or.inl rfl
          | some w =>
            right
            rw [h2 w hlv, hn]
        · rw [fn_of_loop_ok r caller outer kwargs ws d hl hn] at h
          simp at h
    · rintro ⟨hacc, hname⟩
      obtain ⟨d, hd⟩ := fnLoop_accepted_ok r kwargs ⟨"", [], []⟩ hacc
      apply fn_of_loop_ok_noname r _ kwargs ws d hd
      obtain ⟨h1, h2⟩ := fnLoop_ok_name r kwargs _ d hd
      rcases hname with hn | hn
      · exact h1 hn
      · have := h2 _ hn
        simp only [Value.str.injEq] at this
        exact this.symm

theorem fn_succeeds_iff_witness :
    WellTyped declA.kwargs ∧
    ((moduleRule.fn ⟨(⟨"MODS"⟩ : Frame) :: []⟩ declA.kwargs Workspace.fresh).2.isOk = true ↔
      ((∀ kv ∈ declA.kwargs, ∀ key, kv.1 = Value.str key → key ≠ "name" →
          ∃ a, mapLookup moduleRule.attrs key = some a) ∧
       (∀ kv ∈ declA.kwargs, ∀ key, kv.1 = Value.str key → key ≠ "name" →
          ∃ items : List String, kv.2 = Value.list (items.map Value.str)) ∧
       (∃ n, lastValue declA.kwargs "name" = some (Value.str n) ∧ n ≠ ""))) ∧
    (moduleRule.fn ⟨(⟨"MODS"⟩ : Frame) :: []⟩ declA.kwargs Workspace.fresh).2.isOk = true :=
  have htyped : WellTyped declA.kwargs := by
    intro kv hkv
    simp only [declA, List.mem_cons, List.mem_singleton, List.not_mem_nil, or_false] at hkv
    rcases hkv with h | h | h
    · subst h; exact ⟨"name", rfl, fun _ => ⟨"a", rfl⟩⟩
    · subst h; exact ⟨"srcs", rfl, fun h => absurd h (by decide)⟩
    · subst h; exact ⟨"deps", rfl, fun h => absurd h (by decide)⟩
  ⟨htyped, (fn_succeeds_iff moduleRule ⟨"MODS"⟩ [] declA.kwargs Workspace.fresh htyped).1, rfl⟩

/-- C19: under a caller frame, an invocation whose keys are strings and whose name
values are strings never crashes: it returns an error with the registry
unchanged, or the none value. When the keys are strings, a crash under a caller
frame can only come from a value supplied for `name` that is not a string, and
such a value does crash the handler (`module(name=1)`). -/
theorem fn_never_crashes_on_well_typed :
    (∀ (r : ruleimpl) (caller : Frame) (outer : List Frame) (kwargs : List (Value × Value))
        (ws : Workspace), WellTyped kwargs →
      ((∃ e, r.fn ⟨caller :: outer⟩ kwargs ws = (ws, .error e)) ∨
        (∃ ws', r.fn ⟨caller :: outer⟩ kwargs ws = (ws', .ok Value.none))) ∧
      ∀ c, (r.fn ⟨caller :: outer⟩ kwargs ws).2 ≠ .crash c) ∧
    (∀ (r : ruleimpl) (caller : Frame) (outer : List Frame) (kwargs : List (Value × Value))
        (ws : Workspace) (c : String), KeysAreStrings kwargs →
      (r.fn ⟨caller :: outer⟩ kwargs ws).2 = .crash c →
      ∃ v, (Value.str "name", v) ∈ kwargs ∧ ∀ s, v ≠ Value.str s) ∧
    (∃ c, moduleRule.fn threadMODS [(Value.str "name", Value.int 1)] Workspace.fresh
      = (Workspace.fresh, .crash c)) := by
  have hmain : ∀ (r : ruleimpl) (caller : Frame) (outer : List Frame)
      (kwargs : List (Value × Value)) (ws : Workspace), WellTyped kwargs →
      ((∃ e, r.fn ⟨caller :: outer⟩ kwargs ws = (ws, .error e)) ∨
        (∃ ws', r.fn ⟨caller :: outer⟩ kwargs ws = (ws', .ok Value.none))) := by
    intro r caller outer kwargs ws htyped
    cases hl : r.fnLoop kwargs ⟨"", [], []⟩ with
    | error e => exact Or.inl ⟨e, fn_of_loop_error r _ kwargs ws e hl⟩
    | crash c => exact absurd hl (fnLoop_wellTyped_no_crash r kwargs _ htyped c)
    | ok d =>
      by_cases hn : d.name = ""
      · exact Or.inl ⟨_, fn_of_loop_ok_noname r _ kwargs ws d hl hn⟩
      · exact Or.inr ⟨_, fn_of_loop_ok r caller outer kwargs ws d hl hn⟩
  have hnocrash : ∀ (r : ruleimpl) (caller : Frame) (outer : List Frame)
      (kwargs : List (Value × Value)) (ws : Workspace), WellTyped kwargs →
      ∀ c, (r.fn ⟨caller :: outer⟩ kwargs ws).2 ≠ .crash c := by
    intro r caller outer kwargs ws htyped c hc
    rcases hmain r caller outer kwargs ws htyped with ⟨e, he⟩ | ⟨ws', hok⟩
    · rw [he] at hc
      cases hc
    · rw [hok] at hc
      cases hc
  refine ⟨fun r caller outer kwargs ws htyped =>
      ⟨hmain r caller outer kwargs ws htyped, hnocrash r caller outer kwargs ws htyped⟩,
    ?_, ⟨_, rfl⟩⟩
  intro r caller outer kwargs ws c hkeys hcrash
  by_contra hno
  have htyped : WellTyped kwargs := by
    intro kv hkv
    obtain ⟨key, hkey⟩ := hkeys kv hkv
    refine ⟨key, hkey, ?_⟩
    intro hname
    by_contra hns
    apply hno
    refine ⟨kv.2, ?_, fun s hs => hns ⟨s, hs⟩⟩
    have : kv = (Value.str "name", kv.2) := by
      rw [← hname, ← hkey]
    rw [← this]
    exact hkv
  exact hnocrash r caller outer kwargs ws htyped c hcrash

theorem fn_never_crashes_on_well_typed_witness :
    WellTyped kwNameThenEmpty ∧
    ((∃ e, moduleRule.fn ⟨(⟨"MODS"⟩ : Frame) :: []⟩ kwNameThenEmpty Workspace.fresh
        = (Workspace.fresh, .error e)) ∨
      (∃ ws', moduleRule.fn ⟨(⟨"MODS"⟩ : Frame) :: []⟩ kwNameThenEmpty Workspace.fresh
        = (ws', .ok Value.none))) :=
  have htyped : WellTyped kwNameThenEmpty := by
    intro kv hkv
    simp only [kwNameThenEmpty, List.mem_cons, List.mem_singleton, List.not_mem_nil,
      or_false] at hkv
    rcases hkv with h | h
    · subst h; exact ⟨"name", rfl, fun _ => ⟨"a", rfl⟩⟩
    · subst h; exact ⟨"name", rfl, fun _ => ⟨"", rfl⟩⟩
  ⟨htyped, (fn_never_crashes_on_well_typed.1 moduleRule ⟨"MODS"⟩ [] kwNameThenEmpty
    Workspace.fresh htyped).1⟩

end Mods
